import Mathlib

/-!
Verification of the virtual-fields schema/query layer.

This file gives a shallow embedding of the two source modules:
the schema initialization module (parsing/validation of virtual fields,
dependency toposort, attribute/include inheritance, order inheritance) and
the beforeFind hook (query-time expansion of virtual fields).

Modelling conventions:
- JavaScript objects holding a requirement set (a virtual field definition,
  an include clause, or a find-options object) are all modelled by the single
  inductive type Item; absent JS properties are Option.none.
- Model references are by name.  A live Sequelize model object reference is
  MRef.byRef, a string reference is MRef.byName; reference equality of model
  objects from one registry coincides with name equality.
- JS in-place mutation is modelled by returning the updated value; the
  registry (sequelize.models) is threaded explicitly as a Schema value.
  Aliasing of merged sub-objects is replaced by copy semantics.
- A thrown JS TypeError from accessing a property of undefined is modelled
  by the explicit error value VErr.typeErr.
- Loops whose iteration count is data dependent (splice-while-scanning) take
  explicit fuel; VErr.noFuel is an embedding artifact marking divergence.
- Attribute entries are Strings (the source's non-string-attribute check is
  vacuous on this domain); single non-array attribute values and non-array
  order values are not represented (requests and definitions supply arrays).
-/

/-- Reference to a model: by name (a string in the JS source) or by live
model object (represented by the model's registry name). -/
inductive MRef where
  | byName (name : String)
  | byRef (name : String)
deriving DecidableEq, Repr

/-- One element of a structured order clause array: a string (field name or
direction), a live model object, a clause object with a model and an optional
alias, or some other object (e.g. a raw-query object). -/
inductive OrderElem where
  | str (s : String)
  | inst (model : String)
  | mObj (model : MRef) (asName : Option String)
  | other (tag : String)
deriving DecidableEq, Repr

/-- One entry of an order list: a raw string (passed through as a raw query),
a structured array, or a single non-array, non-string value. -/
inductive OrderEntry where
  | rawStr (s : String)
  | arr (elems : List OrderElem)
  | single (e : OrderElem)
deriving DecidableEq, Repr

/-- Syntactic form of an include entry in the JS source: a bare string, a
bare model object, or an object with a model property. -/
inductive IForm where
  | strF
  | instF
  | objF
deriving DecidableEq, Repr

/-- A requirement-set bearing object: a field definition, an include clause
or a find-options object.  Fields:
form (include-entry shape), modelRef (target model of an include clause),
asName (the as alias), virtual (whether the field type is VIRTUAL),
attributes, includes (the include property), order, and virtualGet
(the options._virtual.get list of injected virtual field names). -/
inductive Item where
  | mk (form : IForm) (modelRef : Option MRef) (asName : Option String)
      (virtual : Bool) (attributes : Option (List String))
      (includes : Option (List Item)) (order : Option (List OrderEntry))
      (virtualGet : List String)

def Item.form : Item → IForm
  | .mk f _ _ _ _ _ _ _ => f

def Item.modelRef : Item → Option MRef
  | .mk _ m _ _ _ _ _ _ => m

def Item.asName : Item → Option String
  | .mk _ _ a _ _ _ _ _ => a

def Item.virtual : Item → Bool
  | .mk _ _ _ v _ _ _ _ => v

def Item.attributes : Item → Option (List String)
  | .mk _ _ _ _ attrs _ _ _ => attrs

def Item.includes : Item → Option (List Item)
  | .mk _ _ _ _ _ incs _ _ => incs

def Item.order : Item → Option (List OrderEntry)
  | .mk _ _ _ _ _ _ ord _ => ord

def Item.virtualGet : Item → List String
  | .mk _ _ _ _ _ _ _ vg => vg

def Item.withAttributes : Item → Option (List String) → Item
  | .mk f m a v _ incs ord vg, attrs => .mk f m a v attrs incs ord vg

def Item.withIncludes : Item → Option (List Item) → Item
  | .mk f m a v attrs _ ord vg, incs => .mk f m a v attrs incs ord vg

def Item.withOrder : Item → Option (List OrderEntry) → Item
  | .mk f m a v attrs incs _ vg, ord => .mk f m a v attrs incs ord vg

def Item.pushVirtualGet : Item → String → Item
  | .mk f m a v attrs incs ord vg, s => .mk f m a v attrs incs ord (vg ++ [s])

/-- A base (non-virtual) field definition. -/
def baseField : Item := .mk .objF none none false none none none []

/-- A virtual field definition with the given declared requirements. -/
def virtualField (attrs : Option (List String)) (incs : Option (List Item))
    (ord : Option (List OrderEntry)) : Item :=
  .mk .objF none none true attrs incs ord []

/-- An include clause object with a resolved model reference. -/
def incObj (model : String) (asName : Option String)
    (attrs : Option (List String)) (incs : Option (List Item)) : Item :=
  .mk .objF (some (.byRef model)) asName false attrs incs none []

/-- A model in the registry: its name, its attributes (field name to field
definition, in definition order) and its associations, given as the set of
(target model name, alias) pairs for which getAssociation succeeds. -/
structure ModelDef where
  name : String
  attributes : List (String × Item)
  assocs : List (String × Option String)

/-- The registry sequelize.models. -/
abbrev Schema := List ModelDef

def lookupModel (sch : Schema) (n : String) : Option ModelDef :=
  sch.find? (fun m => m.name == n)

def lookupAttr (m : ModelDef) (a : String) : Option Item :=
  (m.attributes.find? (fun p => p.1 == a)).map (·.2)

/-- Whether the named attribute of the named model is a VIRTUAL field. -/
def virtualAt (sch : Schema) (mName a : String) : Bool :=
  match lookupModel sch mName with
  | none => false
  | some m =>
    match lookupAttr m a with
    | none => false
    | some f => f.virtual

/-- Helper for lodash _.uniq: keep elements not seen before, in order. -/
def uniqAux {α : Type} [DecidableEq α] (seen : List α) : List α → List α
  | [] => []
  | x :: xs => if x ∈ seen then uniqAux seen xs else x :: uniqAux (seen ++ [x]) xs

/-- lodash _.uniq: keep the first occurrence of each element. -/
def lodashUniq {α : Type} [DecidableEq α] (l : List α) : List α :=
  uniqAux [] l

/-- lodash _.union of two arrays: unique values, in order, from both. -/
def lodashUnion {α : Type} [DecidableEq α] (a b : List α) : List α :=
  lodashUniq (a ++ b)

/-- Whether two include clauses are identified by the source's merge:
toInclude.model == fromInclude.model && toInclude.as == fromInclude.as. -/
def sameJoin (t fr : Item) : Bool :=
  t.modelRef == fr.modelRef && t.asName == fr.asName

mutual

/-- Embeds mergeClauses from the initialization module: merge fromItem's
attributes into item (union when both present, delete when item has an
attribute list but fromItem does not) and merge fromItem's includes into
item's includes by (model, as) identity.  Order lists are not touched. -/
def mergeClauses (item : Item) : Item → Item
  | .mk _ff _fm _fa _fv fattrs fincs _ford _fg =>
    let item1 :=
      match item.attributes with
      | none => item
      | some attrs =>
        match fattrs with
        | none => item.withAttributes none
        | some fromAttrs => item.withAttributes (some (lodashUnion attrs fromAttrs))
    match fincs with
    | none => item1
    | some fromIncs =>
      match item1.includes with
      | none => item1.withIncludes (some fromIncs)
      | some incs => item1.withIncludes (some (mergeIncludes incs fromIncs))

/-- Merge each incoming include entry into the accumulated include list:
the first entry with the same model and as (if any) is merged recursively in
place, otherwise the incoming entry is appended at the end. -/
def mergeIncludes (incs : List Item) : List Item → List Item
  | [] => incs
  | fr :: rest =>
    let next :=
      match incs.findIdx? (fun t => sameJoin t fr) with
      | some i =>
        match incs.get? i with
        | some t => incs.set i (mergeClauses t fr)
        | none => incs ++ [fr]
      | none => incs ++ [fr]
    mergeIncludes next rest

end

example :
    mergeClauses (virtualField (some ["x"]) none none)
      (virtualField (some ["y", "x"]) none none)
      = virtualField (some ["x", "y"]) none none := rfl

/-- The errors thrown by the source (SequelizeVirtualFieldsError values with
distinct messages, plus the TypeError crash and the fuel artifact). -/
inductive VErr where
  | attrNonexistent (modelName fieldName targetModel attr : String)
  | invalidClause (clauseType modelName fieldName : String)
  | unknownModel (clauseType modelName fieldName target : String)
  | invalidAssoc (clauseType modelName fieldName parentName target : String)
  | invalidOrder (modelName fieldName : String)
  | orderNonexistent (modelName fieldName targetModel attr : String)
  | circular (modelName fieldName : String)
  | circularOrder (modelName fieldName : String)
  | missingOrderClause (modelName fieldName refModel refField : String)
  | hookFieldMissing (modelName fieldName : String)
  | invalidHookOrder
  | typeErr
  | noFuel
deriving DecidableEq, Repr

/-- Check each declared attribute names an existing field of the parent
model (parseInclude, attribute loop); first offender wins. -/
def checkAttrs (modelName fieldName : String) (parent : ModelDef) :
    List String → Option VErr
  | [] => none
  | a :: rest =>
    if (lookupAttr parent a).isSome then checkAttrs modelName fieldName parent rest
    else some (.attrNonexistent modelName fieldName parent.name a)

/-- Normalize and check an attributes property: absent becomes an empty
list, a present list is validated against the parent model. -/
def parseAttributesOf (modelName fieldName : String) (parent : ModelDef) :
    Option (List String) → Except VErr (Option (List String))
  | none => .ok (some [])
  | some l =>
    match checkAttrs modelName fieldName parent l with
    | none => .ok (some l)
    | some e => .error e

/-- Embeds parseClause: resolve the target of an include or order clause to
a model, checking the clause shape and the association from the parent.
Returns the resolved target model name.  (An as value that is not a string
is not representable on this domain, so that error branch is vacuous.) -/
def resolveClause (sch : Schema) (clauseType modelName fieldName : String)
    (parent : ModelDef) (mref : Option MRef) (asN : Option String) :
    Except VErr String := do
  let targetName ←
    match mref with
    | none => .error (.invalidClause clauseType modelName fieldName)
    | some (.byName s) =>
      match lookupModel sch s with
      | none => .error (.unknownModel clauseType modelName fieldName s)
      | some m => .ok m.name
    | some (.byRef n) => .ok n
  if parent.assocs.contains (targetName, asN) then .ok targetName
  else .error (.invalidAssoc clauseType modelName fieldName parent.name targetName)

mutual

/-- Embeds parseClause plus the recursive parseInclude call on one include
entry: resolve the clause against the current parent, then normalize the
entry's attributes and includes against the entry's own model. -/
def parseIncEntry (sch : Schema) (fieldName modelName : String) (parent : ModelDef) :
    Item → Except VErr Item
  | .mk _f m a v attrs incs ord vg =>
    match resolveClause sch "Include" modelName fieldName parent m a with
    | .error e => .error e
    | .ok tn =>
      match lookupModel sch tn with
      | none => .error .typeErr
      | some childModel =>
        match parseAttributesOf modelName fieldName childModel attrs with
        | .error e => .error e
        | .ok attrs2 =>
          match incs with
          | none => .ok (Item.mk .objF (some (.byRef tn)) a v attrs2 none ord vg)
          | some l =>
            match parseIncList sch fieldName modelName childModel l with
            | .error e => .error e
            | .ok l2 => .ok (Item.mk .objF (some (.byRef tn)) a v attrs2 (some l2) ord vg)

/-- Embeds the include part of parseInclude: each entry is run through
parseClause and then recursed into, left to right. -/
def parseIncList (sch : Schema) (fieldName modelName : String) (parent : ModelDef) :
    List Item → Except VErr (List Item)
  | [] => .ok []
  | inc :: rest =>
    match parseIncEntry sch fieldName modelName parent inc with
    | .error e => .error e
    | .ok inc2 =>
      match parseIncList sch fieldName modelName parent rest with
      | .error e => .error e
      | .ok rest2 => .ok (inc2 :: rest2)

end

/-- Embeds parseInclude applied to a top-level virtual field definition. -/
def parseIncludeTop (sch : Schema) (fieldName : String) (model : ModelDef)
    (field : Item) : Except VErr Item :=
  match field with
  | .mk f m a v attrs incs ord vg => do
    let attrs2 ← parseAttributesOf model.name fieldName model attrs
    let incs2 ←
      match incs with
      | none => pure none
      | some l => do
        let l2 ← parseIncList sch fieldName model.name model l
        pure (some l2)
    .ok (.mk f m a v attrs2 incs2 ord vg)

/-- View an order-clause array element as the (shape, model, as) triple that
parseClause inspects. -/
def elemClauseParts : OrderElem → (IForm × Option MRef × Option String)
  | .str s => (.strF, some (.byName s), none)
  | .inst m => (.instF, some (.byRef m), none)
  | .mObj r asN => (.objF, some r, asN)
  | .other _ => (.objF, none, none)

/-- Uppercase via the character list (JS String.prototype.toUpperCase on
the ASCII directions used here). -/
def upperStr (s : String) : String := String.mk (s.data.map Char.toUpper)

/-- Embeds parseOrder's direction normalization (lines adding ASC/DESC):
empty arrays are an error; a one-element array gets ASC; otherwise the last
element is upper-cased if it reads ASC or DESC case-insensitively and ASC is
pushed otherwise.  Calling toUpperCase on a non-string is a TypeError. -/
def normalizeDirection (modelName fieldName : String) (es : List OrderElem) :
    Except VErr (List OrderElem) :=
  if es.isEmpty then .error (.invalidOrder modelName fieldName)
  else if es.length == 1 then .ok (es ++ [.str "ASC"])
  else
    match es.getLast? with
    | some (.str s) =>
      if ["ASC", "DESC"].contains (upperStr s) then .ok (es.dropLast ++ [.str (upperStr s)])
      else .ok (es ++ [.str "ASC"])
    | some _ => .error .typeErr
    | none => .error (.invalidOrder modelName fieldName)

/-- Embeds parseOrder's path walk: every element before the final
field/direction pair is run through parseClause, the parent advancing to
each resolved model.  Returns the final parent and the rewritten path. -/
def parseOrderPath (sch : Schema) (fieldName modelName : String) :
    ModelDef → List OrderElem → Except VErr (ModelDef × List OrderElem)
  | parent, [] => .ok (parent, [])
  | parent, e :: rest => do
    let (_f, m, a) := elemClauseParts e
    let tn ← resolveClause sch "Order" modelName fieldName parent m a
    let childModel ←
      match lookupModel sch tn with
      | some cm => .ok cm
      | none => .error .typeErr
    let (pfin, rest2) ← parseOrderPath sch fieldName modelName childModel rest
    .ok (pfin, OrderElem.mObj (.byRef tn) a :: rest2)

/-- Embeds the per-entry body of parseOrder for a structured array entry:
normalize the direction, resolve the leading path, then check a string
terminal field exists on the resolved parent. -/
def parseOrderArr (sch : Schema) (fieldName : String) (model : ModelDef)
    (es : List OrderElem) : Except VErr OrderEntry := do
  let es1 ← normalizeDirection model.name fieldName es
  let lead := es1.take (es1.length - 2)
  let tail2 := es1.drop (es1.length - 2)
  let (parent2, lead2) ← parseOrderPath sch fieldName model.name model lead
  match tail2 with
  | [t, d] =>
    match t with
    | .str s =>
      if (lookupAttr parent2 s).isSome then .ok (.arr (lead2 ++ [t, d]))
      else .error (.orderNonexistent model.name fieldName parent2.name s)
    | _ => .ok (.arr (lead2 ++ [t, d]))
  | _ => .error .typeErr

/-- Embeds one iteration of parseOrder's entry loop: raw strings pass
through untouched; a non-array entry is replaced by the pair of the entry
and ASC and then processed as an array. -/
def parseOrderEntry (sch : Schema) (fieldName : String) (model : ModelDef) :
    OrderEntry → Except VErr OrderEntry
  | .rawStr s => .ok (.rawStr s)
  | .single e => parseOrderArr sch fieldName model [e, .str "ASC"]
  | .arr es => parseOrderArr sch fieldName model es

def parseOrderList (sch : Schema) (fieldName : String) (model : ModelDef) :
    List OrderEntry → Except VErr (List OrderEntry)
  | [] => .ok []
  | e :: rest => do
    let e2 ← parseOrderEntry sch fieldName model e
    let rest2 ← parseOrderList sch fieldName model rest
    .ok (e2 :: rest2)

/-- Embeds parseOrder: absent order lists are left alone. -/
def parseOrderOf (sch : Schema) (fieldName : String) (model : ModelDef) :
    Option (List OrderEntry) → Except VErr (Option (List OrderEntry))
  | none => .ok none
  | some entries => do
    let l2 ← parseOrderList sch fieldName model entries
    .ok (some l2)

/-- Embeds parseField: parse attributes and includes, then order. -/
def parseField (sch : Schema) (model : ModelDef) (fieldName : String)
    (field : Item) : Except VErr Item := do
  let f1 ← parseIncludeTop sch fieldName model field
  let ord2 ← parseOrderOf sch fieldName model f1.order
  .ok (f1.withOrder ord2)

/-- Replace the definition of one field of one model.  This models the JS
in-place mutation of model.attributes entries. -/
def updateField (sch : Schema) (mName fName : String) (f : Item) : Schema :=
  sch.map (fun m =>
    if m.name == mName then
      ModelDef.mk m.name
        (m.attributes.map (fun p => if p.1 == fName then (p.1, f) else p)) m.assocs
    else m)

/-- All (model name, field name) pairs in registry iteration order. -/
def fieldKeys (sch : Schema) : List (String × String) :=
  sch.flatMap (fun m => m.attributes.map (fun p => (m.name, p.1)))

/-- Run parseField over the given keys in order, stopping at the first
error.  JS exceptions abort the iteration but do not roll back the in-place
mutations already performed, so the schema state at the error is kept. -/
def parseSteps : Schema → List (String × String) → Schema × Option VErr
  | sch, [] => (sch, none)
  | sch, (mn, fn) :: rest =>
    match lookupModel sch mn with
    | none => (sch, some .typeErr)
    | some model =>
      match lookupAttr model fn with
      | none => (sch, some .typeErr)
      | some field =>
        if field.virtual then
          match parseField sch model fn field with
          | .error e => (sch, some e)
          | .ok f2 => parseSteps (updateField sch mn fn f2) rest
        else parseSteps sch rest

/-- The parse pass of initVirtualFields: parseField for every VIRTUAL field
of every model. -/
def parsePhase (sch : Schema) : Schema × Option VErr :=
  parseSteps sch (fieldKeys sch)

/-- A node of the dependency graph: (model name, field name). -/
abbrev Node := String × String

/-- An edge (dependent, dependency) as pushed by the source. -/
abbrev Edge := Node × Node

/-- Edges contributed by one attribute list: one edge from the top field to
every attribute that resolves to a VIRTUAL field of the given model. -/
def attrEdgesOf (top : Node) (model : ModelDef) :
    List String → Except VErr (List Edge)
  | [] => .ok []
  | a :: rest =>
    match lookupAttr model a with
    | none => .error .typeErr
    | some f => do
      let rest2 ← attrEdgesOf top model rest
      .ok ((if f.virtual then [(top, (model.name, a))] else []) ++ rest2)

mutual

/-- Embeds findVirtual from inheritInclude: collect dependency edges from
the attribute list, then recurse into each include with its own model. -/
def findVirtualEdges (sch : Schema) (top : Node) (model : ModelDef) :
    Item → Except VErr (List Edge)
  | .mk _f _m _a _v attrs incs _ord _vg => do
    let es1 ← attrEdgesOf top model (attrs.getD [])
    let es2 ←
      match incs with
      | none => pure ([] : List Edge)
      | some l => findVirtualEdgesList sch top l
    pure (es1 ++ es2)

def findVirtualEdgesList (sch : Schema) (top : Node) :
    List Item → Except VErr (List Edge)
  | [] => .ok []
  | inc :: rest => do
    let m ←
      match inc.modelRef with
      | some (.byRef n) =>
        match lookupModel sch n with
        | some md => .ok md
        | none => .error (.typeErr)
      | _ => .error (.typeErr)
    let e1 ← findVirtualEdges sch top m inc
    let e2 ← findVirtualEdgesList sch top rest
    pure (e1 ++ e2)

end

/-- Attribute-reference dependency edges over the whole registry
(inheritInclude, first loop). -/
def attrEdgesSteps (sch : Schema) : List (String × String) → Except VErr (List Edge)
  | [] => .ok []
  | (mn, fn) :: rest =>
    match lookupModel sch mn with
    | none => .error .typeErr
    | some model =>
      match lookupAttr model fn with
      | none => .error .typeErr
      | some field =>
        if field.virtual then do
          let e1 ← findVirtualEdges sch (mn, fn) model field
          let e2 ← attrEdgesSteps sch rest
          .ok (e1 ++ e2)
        else attrEdgesSteps sch rest

def attrEdges (sch : Schema) : Except VErr (List Edge) :=
  attrEdgesSteps sch (fieldKeys sch)

/-- Successors of a node: its dependencies. -/
def succsOf (edges : List Edge) (a : Node) : List Node :=
  (edges.filter (fun e => e.1 == a)).map (·.2)

/-- All nodes mentioned by the edge list, first occurrence order. -/
def nodesOf (edges : List Edge) : List Node :=
  lodashUniq (edges.flatMap (fun e => [e.1, e.2]))

/-- Nodes of the remaining set all of whose dependencies are already
processed (no successor still remaining). -/
def kahnReady (edges : List Edge) (remaining : List Node) : List Node :=
  remaining.filter (fun a => (succsOf edges a).all (fun b => ¬ remaining.contains b))

/-- Kahn-style rounds: emit every ready node, fail when no node is ready.
The fuel counts rounds; nodesOf.length rounds always suffice. -/
def kahnGo (edges : List Edge) : Nat → List Node → List Node → Except Node (List Node)
  | _, acc, [] => .ok acc
  | 0, _, r :: _ => .error r
  | fuel+1, acc, r :: rest =>
    let remaining := r :: rest
    let ready := kahnReady edges remaining
    if ready.isEmpty then .error r
    else kahnGo edges fuel (acc ++ ready) (remaining.filter (fun a => ¬ ready.contains a))

/-- Modelled from the spec: toposort-extended's dependents sort followed by
reverse (spec 4.2) - a linear processing order in which every dependency
precedes its dependents, failing on a cycle with a node of the graph. -/
def toposortDependents (edges : List Edge) : Except Node (List Node) :=
  let nodes := nodesOf edges
  kahnGo edges nodes.length [] nodes

/-- Embeds the attribute scan loop of mergeVirtual: walk the attribute list
with an explicit cursor; a VIRTUAL entry is spliced out, the referenced
field's clauses are merged in, and the cursor stays put; otherwise the
cursor advances. -/
def mvLoop (sch : Schema) (model : ModelDef) : Nat → Nat → Item → Except VErr Item
  | 0, _, _ => .error .noFuel
  | fuel+1, i, item =>
    match item.attributes with
    | none => .error .typeErr
    | some attrs =>
      if h : i < attrs.length then
        match lookupAttr model (attrs.get ⟨i, h⟩) with
        | none => .error .typeErr
        | some ref =>
          if ref.virtual then
            mvLoop sch model fuel i
              (mergeClauses (item.withAttributes (some (attrs.eraseIdx i))) ref)
          else mvLoop sch model fuel (i + 1) item
      else .ok item

mutual

/-- Embeds mergeVirtual: close the attribute list of a requirement-set
object against its model, then recurse into its includes. -/
def mergeVirtual (sch : Schema) : Nat → ModelDef → Item → Except VErr Item
  | 0, _, _ => .error .noFuel
  | fuel+1, model, item => do
    let item1 ← mvLoop sch model (fuel + 1) 0 item
    match item1.includes with
    | none => .ok item1
    | some incs => do
      let incs2 ← mergeVirtualList sch fuel incs
      .ok (item1.withIncludes (some incs2))

def mergeVirtualList (sch : Schema) : Nat → List Item → Except VErr (List Item)
  | 0, _ => .error .noFuel
  | _+1, [] => .ok []
  | fuel+1, inc :: rest => do
    let m ←
      match inc.modelRef with
      | some (.byRef n) =>
        match lookupModel sch n with
        | some md => .ok md
        | none => .error (.typeErr)
      | _ => .error (.typeErr)
    let inc2 ← mergeVirtual sch fuel m inc
    let rest2 ← mergeVirtualList sch fuel rest
    .ok (inc2 :: rest2)

end

/-- Process the toposorted nodes in order, replacing each field by its
closed form (inheritInclude, final loop).  The error case keeps the
mutations already applied. -/
def closeSteps (fuel : Nat) : Schema → List Node → Schema × Option VErr
  | sch, [] => (sch, none)
  | sch, (mn, fn) :: rest =>
    match lookupModel sch mn with
    | none => (sch, some .typeErr)
    | some model =>
      match lookupAttr model fn with
      | none => (sch, some .typeErr)
      | some field =>
        match mergeVirtual sch fuel model field with
        | .error e => (sch, some e)
        | .ok f2 => closeSteps fuel (updateField sch mn fn f2) rest

/-- Embeds inheritInclude: collect attribute-reference edges, toposort them
(dependencies first), then close every involved field in that order. -/
def inheritIncludePhase (fuel : Nat) (sch : Schema) : Schema × Option VErr :=
  match attrEdges sch with
  | .error e => (sch, some e)
  | .ok edges =>
    match toposortDependents edges with
    | .error n => (sch, some (.circular n.1 n.2))
    | .ok order => closeSteps fuel sch order

/-- The JS expression elem.model, where a resolved clause object is
expected: only an object holding a live model reference yields a model that
has an attributes property. -/
def elemDotModel : OrderElem → Option String
  | .mObj (.byRef n) _ => some n
  | _ => none

/-- The JS expression order.length: undefined for a non-array entry, the
string length for a raw string. -/
def entryLen : OrderEntry → Option Nat
  | .rawStr s => some s.length
  | .arr es => some es.length
  | .single _ => none

/-- Indexing order[k]: characters for a raw string, elements for an array. -/
def entryAt : OrderEntry → Nat → Option OrderElem
  | .rawStr s, k => (s.data.get? k).map (fun c => .str (String.mk [c]))
  | .arr es, k => es.get? k
  | .single _, _ => none

/-- Embeds the source's order-clause terminal resolution (inheritOrder):
orderModel is the model of order[length-3] when length exceeds 2 and the
field's own model otherwise; the terminal key is order[length-2].  Any step
that dereferences undefined is a TypeError.  (A non-string terminal coerced
to an object key is modelled as a failed lookup: no field is named by such
a coercion on this domain.) -/
def resolveOrderRef (sch : Schema) (model : ModelDef) (entry : OrderEntry) :
    Except VErr (ModelDef × String) := do
  match entryLen entry with
  | none => .error .typeErr
  | some len => do
    let om ←
      if len > 2 then
        match entryAt entry (len - 3) with
        | some e =>
          match elemDotModel e with
          | some n =>
            match lookupModel sch n with
            | some m => .ok m
            | none => .error (.typeErr)
          | none => .error (.typeErr)
        | none => .error (.typeErr)
      else .ok model
    if len ≥ 2 then
      match entryAt entry (len - 2) with
      | some (.str s) => .ok (om, s)
      | _ => .error .typeErr
    else .error .typeErr

/-- Order-reference dependency edges of one order list (inheritOrder,
first loop). -/
def orderEdgesOf (sch : Schema) (top : Node) (model : ModelDef) :
    List OrderEntry → Except VErr (List Edge)
  | [] => .ok []
  | entry :: rest => do
    let (om, key) ← resolveOrderRef sch model entry
    match lookupAttr om key with
    | none => .error .typeErr
    | some f => do
      let rest2 ← orderEdgesOf sch top model rest
      .ok ((if f.virtual then [(top, (om.name, key))] else []) ++ rest2)

/-- Order-reference dependency edges over the whole registry: only VIRTUAL
fields that have an order property contribute. -/
def orderEdgesSteps (sch : Schema) : List (String × String) → Except VErr (List Edge)
  | [] => .ok []
  | (mn, fn) :: rest =>
    match lookupModel sch mn with
    | none => .error .typeErr
    | some model =>
      match lookupAttr model fn with
      | none => .error .typeErr
      | some field =>
        if field.virtual && field.order.isSome then do
          let e1 ← orderEdgesOf sch (mn, fn) model (field.order.getD [])
          let e2 ← orderEdgesSteps sch rest
          .ok (e1 ++ e2)
        else orderEdgesSteps sch rest

def orderEdges (sch : Schema) : Except VErr (List Edge) :=
  orderEdgesSteps sch (fieldKeys sch)

/-- order.slice(0, -2): the leading join path of a structured clause. -/
def entryLead : OrderEntry → List OrderElem
  | .arr es => es.take (es.length - 2)
  | _ => []

/-- orderClauseBase.concat(fromOrder): element-wise for an array argument,
as a single element otherwise. -/
def concatEntry (base : List OrderElem) : OrderEntry → OrderEntry
  | .arr es => .arr (base ++ es)
  | .rawStr s => .arr (base ++ [.str s])
  | .single e => .arr (base ++ [e])

/-- Embeds the order-substitution loop of inheritOrder: a clause whose
terminal resolves to a VIRTUAL field is removed and replaced in place by
that field's own order clauses, each prefixed with the original clause's
leading join path; the cursor then continues after the inserted block, so
inserted clauses are not rescanned.  A referenced virtual field without a
nonempty order list is a MissingOrderClause error. -/
def substOrders (sch : Schema) (model : ModelDef) (fieldName : String) :
    List OrderEntry → List OrderEntry → Except VErr (List OrderEntry)
  | done, [] => .ok done
  | done, c :: rest => do
    let (om, key) ← resolveOrderRef sch model c
    match lookupAttr om key with
    | none => .error .typeErr
    | some ff =>
      if ff.virtual then
        let fromOrders := ff.order.getD []
        if fromOrders.isEmpty then
          .error (.missingOrderClause model.name fieldName om.name key)
        else
          match c with
          | .rawStr _ => .error .typeErr
          | _ =>
            substOrders sch model fieldName
              (done ++ fromOrders.map (concatEntry (entryLead c))) rest
      else substOrders sch model fieldName (done ++ [c]) rest

/-- Process the toposorted order-dependency nodes in order, rewriting each
field's order list (inheritOrder, final loop).  A node whose field has no
order property crashes on orders.length. -/
def inheritOrderSteps : Schema → List Node → Schema × Option VErr
  | sch2, [] => (sch2, none)
  | sch2, (mn, fn) :: rest =>
    match lookupModel sch2 mn with
    | none => (sch2, some .typeErr)
    | some model =>
      match lookupAttr model fn with
      | none => (sch2, some .typeErr)
      | some field =>
        match field.order with
        | none => (sch2, some .typeErr)
        | some orders =>
          match substOrders sch2 model fn [] orders with
          | .error e => (sch2, some e)
          | .ok orders2 =>
            inheritOrderSteps (updateField sch2 mn fn (field.withOrder (some orders2))) rest

/-- Embeds inheritOrder: collect order-reference edges, toposort them, then
rewrite order clauses in dependency order. -/
def inheritOrderPhase (sch : Schema) : Schema × Option VErr :=
  match orderEdges sch with
  | .error e => (sch, some e)
  | .ok edges =>
    match toposortDependents edges with
    | .error n => (sch, some (.circularOrder n.1 n.2))
    | .ok order => inheritOrderSteps sch order

/-- Embeds initVirtualFields: parse and validate every virtual field, then
inherit includes, then inherit orders.  An error aborts the remaining work
but keeps all in-place mutations applied so far. -/
def initVirtualFields (fuel : Nat) (sch : Schema) : Schema × Option VErr :=
  match parsePhase sch with
  | (s1, some e) => (s1, some e)
  | (s1, none) =>
    match inheritIncludePhase fuel s1 with
    | (s2, some e) => (s2, some e)
    | (s2, none) => inheritOrderPhase s2

mutual

/-- Modelled from the spec: mergeClauses of lib/shared.js, which is not
under src (only its caller, the beforeFind hook, is).  Per spec section 4.3
the merge semantics are those of the closure-time merger, reused at query
time, and order lists are merged by concatenation: the dependency's order
entries are appended after the consumer's own. -/
def sharedMergeClauses (item : Item) : Item → Item
  | .mk _ff _fm _fa _fv fattrs fincs ford _fg =>
    let item1 :=
      match item.attributes with
      | none => item
      | some attrs =>
        match fattrs with
        | none => item.withAttributes none
        | some fromAttrs => item.withAttributes (some (lodashUnion attrs fromAttrs))
    let item2 :=
      match ford with
      | none => item1
      | some fo => item1.withOrder (some (item1.order.getD [] ++ fo))
    match fincs with
    | none => item2
    | some fromIncs =>
      match item2.includes with
      | none => item2.withIncludes (some fromIncs)
      | some incs => item2.withIncludes (some (sharedMergeIncludes incs fromIncs))

/-- Include-list merge for the spec-modelled query-time merger, by the same
(target entity, alias) identity as the closure-time merger. -/
def sharedMergeIncludes (incs : List Item) : List Item → List Item
  | [] => incs
  | fr :: rest =>
    let next :=
      match incs.findIdx? (fun t => sameJoin t fr) with
      | some i =>
        match incs.get? i with
        | some t => incs.set i (sharedMergeClauses t fr)
        | none => incs ++ [fr]
      | none => incs ++ [fr]
    sharedMergeIncludes next rest

end

/-- Embeds addVirtualFieldOptions: merge the virtual field's clauses into
the options (via the shared merger) and record the field name in
options._virtual.get. -/
def addVirtualFieldOptions (options field : Item) (fieldName : String) : Item :=
  (sharedMergeClauses options field).pushVirtualGet fieldName

/-- Embeds the attribute loop of replaceVirtualFields: scan the attribute
list with an explicit cursor; a missing field is an error; a VIRTUAL field
has its options merged in, is spliced out, and the cursor stays put. -/
def rvfLoop (sch : Schema) (model : ModelDef) : Nat → Nat → Item → Except VErr Item
  | 0, _, _ => .error .noFuel
  | fuel+1, i, options =>
    match options.attributes with
    | none => .error .typeErr
    | some attrs =>
      if h : i < attrs.length then
        let fieldName := attrs.get ⟨i, h⟩
        match lookupAttr model fieldName with
        | none => .error (.hookFieldMissing model.name fieldName)
        | some field =>
          if field.virtual then
            let o2 := addVirtualFieldOptions options field fieldName
            match o2.attributes with
            | none => .error .typeErr
            | some attrs2 =>
              rvfLoop sch model fuel i (o2.withAttributes (some (attrs2.eraseIdx i)))
          else rvfLoop sch model fuel (i + 1) options
      else .ok options

/-- Embeds the no-attributes branch of replaceVirtualFields: every VIRTUAL
field of the model contributes its options. -/
def addAllVirtuals : Item → List (String × Item) → Item
  | options, [] => options
  | options, (fn, f) :: rest =>
    addAllVirtuals (if f.virtual then addVirtualFieldOptions options f fn else options) rest

mutual

/-- Embeds replaceVirtualFields of the beforeFind hook: expand the
attribute list (or, absent one, pull in every virtual field of the model),
then recurse through all includes. -/
def replaceVirtualFields (sch : Schema) : Nat → ModelDef → Item → Except VErr Item
  | 0, _, _ => .error .noFuel
  | fuel+1, model, options => do
    let o1 ←
      match options.attributes with
      | some _ => rvfLoop sch model (fuel + 1) 0 options
      | none => .ok (addAllVirtuals options model.attributes)
    match o1.includes with
    | none => .ok o1
    | some incs => do
      let incs2 ← rvfList sch fuel incs
      .ok (o1.withIncludes (some incs2))

/-- The include recursion of replaceVirtualFields: a bare model entry is
first wrapped into object form, then the include is expanded against its
model.  A string entry or an unresolved model is a TypeError dereference. -/
def rvfList (sch : Schema) : Nat → List Item → Except VErr (List Item)
  | 0, _ => .error .noFuel
  | _+1, [] => .ok []
  | fuel+1, inc :: rest => do
    let inc1 :=
      match inc.form with
      | .instF =>
        Item.mk .objF inc.modelRef inc.asName inc.virtual inc.attributes inc.includes
          inc.order inc.virtualGet
      | _ => inc
    let m ←
      match inc1.form, inc1.modelRef with
      | .objF, some (.byRef n) =>
        match lookupModel sch n with
        | some md => .ok md
        | none => .error (.typeErr)
      | _, _ => .error (.typeErr)
    let inc2 ← replaceVirtualFields sch fuel m inc1
    let rest2 ← rvfList sch fuel rest
    .ok (inc2 :: rest2)

end

/-- Whether an optional order element is a string (lodash isString). -/
def isStrElem : Option OrderElem → Bool
  | some (.str _) => true
  | _ => false

/-- Convert bare model instances in the leading path into object form
(replaceVirtualOrders, final loop of the normalization body). -/
def convertLeadInst (es : List OrderElem) : List OrderElem :=
  es.mapIdx (fun i e =>
    if i < es.length - 2 then
      match e with
      | .inst m => .mObj (.byRef m) none
      | _ => e
    else e)

/-- Embeds the per-entry normalization of replaceVirtualOrders: raw strings
pass; a non-array becomes the pair with ASC; an empty array is an error; a
one-element array, or one whose second-to-last element is not a string, gets
ASC pushed; otherwise the last element is upper-cased unconditionally. -/
def hookNormalizeEntry : OrderEntry → Except VErr OrderEntry
  | .rawStr s => .ok (.rawStr s)
  | .single e => .ok (.arr [e, .str "ASC"])
  | .arr es =>
    if es.isEmpty then .error .invalidHookOrder
    else do
      let es1 ←
        if es.length == 1 || !isStrElem (es.get? (es.length - 2)) then
          .ok (es ++ [.str "ASC"])
        else
          match es.getLast? with
          | some (.str s) => .ok (es.dropLast ++ [.str (upperStr s)])
          | _ => .error .typeErr
      .ok (.arr (convertLeadInst es1))

def hookNormalizeList : List OrderEntry → Except VErr (List OrderEntry)
  | [] => .ok []
  | e :: rest => do
    let e2 ← hookNormalizeEntry e
    let rest2 ← hookNormalizeList rest
    .ok (e2 :: rest2)

/-- Modelled from the spec: mergeOrders of lib/shared.js, which is not
under src.  Per spec section 4.5 it applies the same substitution algorithm
as order inheritance to the request's order list: clauses whose terminal
field is a closed virtual field are replaced by that field's own order
clauses. -/
def mergeOrders (sch : Schema) (model : ModelDef) (orders : List OrderEntry) :
    Except VErr (List OrderEntry) :=
  substOrders sch model "" [] orders

/-- Embeds replaceVirtualOrders: nothing to do without an order list;
otherwise normalize each entry and replace virtual order references. -/
def replaceVirtualOrders (sch : Schema) (model : ModelDef) (options : Item) :
    Except VErr Item :=
  match options.order with
  | none => .ok options
  | some orders => do
    let o1 ← hookNormalizeList orders
    let o2 ← mergeOrders sch model o1
    .ok (options.withOrder (some o2))

/-- Embeds the beforeFind hook body (expandRequest of the spec): expand
virtual fields, then expand virtual order clauses. -/
def expandRequest (sch : Schema) (fuel : Nat) (model : ModelDef) (options : Item) :
    Except VErr Item := do
  let o1 ← replaceVirtualFields sch fuel model options
  replaceVirtualOrders sch model o1

/-- Field lookup through the registry. -/
def fieldAt (sch : Schema) (mn fn : String) : Option Item :=
  (lookupModel sch mn).bind (fun m => lookupAttr m fn)

/-- The scenario of spec section 8: Person with base name; Task with base
name and the Derived field Label reading name and joining Person. -/
def personM : ModelDef := ⟨"Person", [("name", baseField)], []⟩

def labelField : Item :=
  virtualField (some ["name"]) (some [incObj "Person" none (some ["name"]) none]) none

def taskM : ModelDef :=
  ⟨"Task", [("name", baseField), ("Label", labelField)], [("Person", none)]⟩

def schEnd : Schema := [personM, taskM]

def reqEnd : Item := .mk .objF none none false (some ["Label"]) none none []

example :
    expandRequest schEnd 10 taskM reqEnd
      = .ok (.mk .objF none none false (some ["name"])
          (some [incObj "Person" none (some ["name"]) none]) none ["Label"]) := rfl

/-- Order-substitution scenario: Task with base name, Label ordered by
name DESC, Title ordered by Label. -/
def labelOrd : Item := virtualField none none (some [.arr [.str "name", .str "DESC"]])

def titleOrd : Item := virtualField none none (some [.arr [.str "Label"]])

def taskOrdM : ModelDef :=
  ⟨"Task", [("name", baseField), ("Label", labelOrd), ("Title", titleOrd)], []⟩

def schOrd : Schema := [taskOrdM]

example :
    ((initVirtualFields 30 schOrd).1 |> fun s => (fieldAt s "Task" "Title").map Item.order)
      = some (some [.arr [.str "name", .str "DESC"]]) := rfl

example : (initVirtualFields 30 schOrd).2 = none := rfl

/-- Partial-state scenario: F depends on G for attributes and on H for
order; H declares an empty order list, so order inheritance fails after
attribute closure has already rewritten F. -/
def schPartial : Schema :=
  [⟨"M", [("x", baseField), ("y", baseField),
      ("F", virtualField (some ["G"]) none (some [.arr [.str "H", .str "ASC"]])),
      ("G", virtualField (some ["x"]) none none),
      ("H", virtualField (some ["y"]) none (some []))], []⟩]

example :
    (initVirtualFields 50 schPartial).2 = some (.missingOrderClause "M" "F" "M" "H") := rfl

example :
    ((initVirtualFields 50 schPartial).1 |> fun s => (fieldAt s "M" "F").map Item.attributes)
      = some (some ["x"]) := rfl

/-- Mixed-cycle scenario: A needs B's attributes, B orders by A.  The union
of the two reference graphs is cyclic, but each graph alone is acyclic. -/
def schMixed : Schema :=
  [⟨"M", [("x", baseField),
      ("A", virtualField (some ["B"]) none (some [.arr [.str "x", .str "ASC"]])),
      ("B", virtualField (some ["x"]) none (some [.arr [.str "A"]]))], []⟩]

example : (initVirtualFields 50 schMixed).2 = none := rfl

/-- Diamond scenario: A and B both depend on C. -/
def schDiamond : Schema :=
  [⟨"D", [("c1", baseField), ("c2", baseField), ("x", baseField),
      ("C", virtualField (some ["c1", "c2"]) none none),
      ("A", virtualField (some ["x", "C"]) none none),
      ("B", virtualField (some ["C"]) none none)], []⟩]

example :
    ((initVirtualFields 50 schDiamond).1 |> fun s => (fieldAt s "D" "A").map Item.attributes)
      = some (some ["x", "c1", "c2"]) := rfl

example :
    ((initVirtualFields 50 schDiamond).1 |> fun s => (fieldAt s "D" "B").map Item.attributes)
      = some (some ["c1", "c2"]) := rfl

example : (initVirtualFields 50 schDiamond).2 = none := rfl

@[simp] theorem Item.attributes_withAttributes (i : Item) (x : Option (List String)) :
    (i.withAttributes x).attributes = x := by cases i; rfl

@[simp] theorem Item.includes_withAttributes (i : Item) (x : Option (List String)) :
    (i.withAttributes x).includes = i.includes := by cases i; rfl

@[simp] theorem Item.order_withAttributes (i : Item) (x : Option (List String)) :
    (i.withAttributes x).order = i.order := by cases i; rfl

@[simp] theorem Item.virtual_withAttributes (i : Item) (x : Option (List String)) :
    (i.withAttributes x).virtual = i.virtual := by cases i; rfl

@[simp] theorem Item.attributes_withIncludes (i : Item) (x : Option (List Item)) :
    (i.withIncludes x).attributes = i.attributes := by cases i; rfl

@[simp] theorem Item.includes_withIncludes (i : Item) (x : Option (List Item)) :
    (i.withIncludes x).includes = x := by cases i; rfl

@[simp] theorem Item.order_withIncludes (i : Item) (x : Option (List Item)) :
    (i.withIncludes x).order = i.order := by cases i; rfl

@[simp] theorem Item.virtual_withIncludes (i : Item) (x : Option (List Item)) :
    (i.withIncludes x).virtual = i.virtual := by cases i; rfl

@[simp] theorem Item.attributes_withOrder (i : Item) (x : Option (List OrderEntry)) :
    (i.withOrder x).attributes = i.attributes := by cases i; rfl

@[simp] theorem Item.includes_withOrder (i : Item) (x : Option (List OrderEntry)) :
    (i.withOrder x).includes = i.includes := by cases i; rfl

@[simp] theorem Item.order_withOrder (i : Item) (x : Option (List OrderEntry)) :
    (i.withOrder x).order = x := by cases i; rfl

/-- The closure-time merger never touches the consumer's order list. -/
theorem mergeClauses_order (item f : Item) : (mergeClauses item f).order = item.order := by
  cases item with
  | mk g m a v attrs incs ord vg =>
    cases f with
    | mk ff fm fa fv fattrs fincs ford fg =>
      cases attrs <;> cases fattrs <;> cases fincs <;> cases incs <;> rfl

/-- Attribute component of the closure-time merger. -/
theorem mergeClauses_attributes (item f : Item) :
    (mergeClauses item f).attributes =
      match item.attributes, f.attributes with
      | none, _ => none
      | some _, none => none
      | some a, some b => some (lodashUnion a b) := by
  cases item with
  | mk g m a v attrs incs ord vg =>
    cases f with
    | mk ff fm fa fv fattrs fincs ford fg =>
      cases attrs <;> cases fattrs <;> cases fincs <;> cases incs <;> rfl

/-- Include component of the closure-time merger. -/
theorem mergeClauses_includes (item f : Item) :
    (mergeClauses item f).includes =
      match f.includes with
      | none => item.includes
      | some fi =>
        match item.includes with
        | none => some fi
        | some ii => some (mergeIncludes ii fi) := by
  cases item with
  | mk g m a v attrs incs ord vg =>
    cases f with
    | mk ff fm fa fv fattrs fincs ford fg =>
      cases attrs <;> cases fattrs <;> cases fincs <;> cases incs <;> rfl

theorem uniqAux_congr {α : Type} [DecidableEq α] (s s' l : List α)
    (h : ∀ y, y ∈ s ↔ y ∈ s') : uniqAux s l = uniqAux s' l := by
  induction l generalizing s s' with
  | nil => rfl
  | cons x xs ih =>
    simp only [uniqAux]
    by_cases hx : x ∈ s
    · rw [if_pos hx, if_pos ((h x).mp hx)]
      exact ih s s' h
    · rw [if_neg hx, if_neg (fun hc => hx ((h x).mpr hc))]
      congr 1
      exact ih _ _ (fun y => by simp [h y])

theorem uniqAux_append {α : Type} [DecidableEq α] (s a b : List α) :
    uniqAux s (a ++ b) = uniqAux s a ++ uniqAux (s ++ uniqAux s a) b := by
  induction a generalizing s with
  | nil => simp [uniqAux]
  | cons x xs ih =>
    simp only [List.cons_append, uniqAux]
    by_cases hx : x ∈ s
    · rw [if_pos hx, if_pos hx]
      exact ih s
    · rw [if_neg hx, if_neg hx]
      simp only [List.append_eq]
      rw [ih (s ++ [x])]
      simp [List.append_assoc]

theorem mem_uniqAux {α : Type} [DecidableEq α] (s l : List α) (x : α) :
    x ∈ uniqAux s l ↔ x ∈ l ∧ x ∉ s := by
  induction l generalizing s with
  | nil => simp [uniqAux]
  | cons y ys ih =>
    simp only [uniqAux]
    by_cases hy : y ∈ s
    · rw [if_pos hy, ih s]
      simp only [List.mem_cons]
      constructor
      · exact fun ⟨h1, h2⟩ => ⟨Or.inr h1, h2⟩
      · rintro ⟨h1 | h1, h2⟩
        · exact absurd (h1 ▸ hy) h2
        · exact ⟨h1, h2⟩
    · rw [if_neg hy]
      simp only [List.mem_cons, ih (s ++ [y]), List.mem_append, List.mem_singleton]
      constructor
      · rintro (rfl | ⟨h1, h2⟩)
        · exact ⟨Or.inl rfl, hy⟩
        · exact ⟨Or.inr h1, fun hc => h2 (Or.inl hc)⟩
      · rintro ⟨rfl | h1, h2⟩
        · exact Or.inl rfl
        · by_cases hxy : x = y
          · exact Or.inl hxy
          · exact Or.inr ⟨h1, by simp [h2, hxy]⟩

theorem nodup_uniqAux {α : Type} [DecidableEq α] (s l : List α) :
    (uniqAux s l).Nodup := by
  induction l generalizing s with
  | nil => simp [uniqAux]
  | cons y ys ih =>
    simp only [uniqAux]
    by_cases hy : y ∈ s
    · rw [if_pos hy]; exact ih s
    · rw [if_neg hy]
      refine List.nodup_cons.mpr ⟨?_, ih _⟩
      intro hmem
      rcases (mem_uniqAux _ _ _).mp hmem with ⟨_, hns⟩
      exact hns (by simp)

theorem uniqAux_eq_self {α : Type} [DecidableEq α] (s a : List α)
    (hd : ∀ x ∈ a, x ∉ s) (hn : a.Nodup) : uniqAux s a = a := by
  induction a generalizing s with
  | nil => rfl
  | cons x xs ih =>
    simp only [uniqAux]
    rw [if_neg (hd x (by simp))]
    congr 1
    refine ih _ ?_ (List.Nodup.of_cons hn)
    intro y hy
    simp only [List.mem_append, List.mem_singleton]
    rintro (h1 | h2)
    · exact hd y (by simp [hy]) h1
    · exact (List.nodup_cons.mp hn).1 (h2 ▸ hy)

theorem uniqAux_filter {α : Type} [DecidableEq α] (s1 s2 l : List α) :
    uniqAux (s1 ++ s2) l = (uniqAux s1 l).filter (fun y => y ∉ s2) := by
  induction l generalizing s1 with
  | nil => simp [uniqAux]
  | cons x xs ih =>
    simp only [uniqAux]
    by_cases h1 : x ∈ s1
    · rw [if_pos (by simp [h1]), if_pos h1]
      exact ih s1
    · by_cases h2 : x ∈ s2
      · rw [if_pos (by simp [h2]), if_neg h1]
        simp only [List.filter_cons]
        rw [if_neg (by simp [h2])]
        rw [← ih (s1 ++ [x])]
        refine uniqAux_congr _ _ _ (fun y => ?_)
        simp only [List.mem_append, List.mem_singleton]
        constructor
        · rintro (h | h)
          · exact Or.inl (Or.inl h)
          · exact Or.inr h
        · rintro ((h | rfl) | h)
          · exact Or.inl h
          · exact Or.inr h2
          · exact Or.inr h
      · rw [if_neg (by simp [h1, h2]), if_neg h1]
        simp only [List.filter_cons]
        rw [if_pos (by simp [h2])]
        congr 1
        rw [← ih (s1 ++ [x])]
        refine uniqAux_congr _ _ _ (fun y => ?_)
        simp only [List.mem_append, List.mem_singleton]
        tauto

theorem mem_lodashUnion {α : Type} [DecidableEq α] (a b : List α) (x : α) :
    x ∈ lodashUnion a b ↔ x ∈ a ∨ x ∈ b := by
  unfold lodashUnion lodashUniq
  rw [mem_uniqAux]
  simp

theorem nodup_lodashUnion {α : Type} [DecidableEq α] (a b : List α) :
    (lodashUnion a b).Nodup := nodup_uniqAux _ _

/-- For a duplicate-free consumer list, lodash union is the consumer's list
followed by the dependency's deduplicated entries not already present. -/
theorem lodashUnion_eq {α : Type} [DecidableEq α] (a b : List α) (h : a.Nodup) :
    lodashUnion a b = a ++ (lodashUniq b).filter (fun y => y ∉ a) := by
  unfold lodashUnion lodashUniq
  rw [uniqAux_append, uniqAux_eq_self [] a (by simp) h]
  congr 1
  have hf := uniqAux_filter [] a b
  simpa using hf

/-- One step of the include merge (the body of the source's forEach over
fromItem.include). -/
def mergeIncStep (incs : List Item) (fr : Item) : List Item :=
  match incs.findIdx? (fun t => sameJoin t fr) with
  | some i =>
    match incs.get? i with
    | some t => incs.set i (mergeClauses t fr)
    | none => incs ++ [fr]
  | none => incs ++ [fr]

theorem mergeIncludes_nil (incs : List Item) : mergeIncludes incs [] = incs := rfl

theorem mergeIncludes_cons (incs : List Item) (fr : Item) (rest : List Item) :
    mergeIncludes incs (fr :: rest) = mergeIncludes (mergeIncStep incs fr) rest := rfl

theorem findIdx_sameJoin_none (incs : List Item) (fr : Item) (k : Nat)
    (h : ∀ t ∈ incs, sameJoin t fr = false) :
    incs.findIdx? (fun t => sameJoin t fr) k = none := by
  induction incs generalizing k with
  | nil => rfl
  | cons t ts ih =>
    rw [List.findIdx?_cons, h t (by simp)]
    simp only [Bool.false_eq_true, if_false]
    exact ih (k + 1) (fun u hu => h u (by simp [hu]))

theorem mergeIncStep_no_match (incs : List Item) (fr : Item)
    (h : ∀ t ∈ incs, sameJoin t fr = false) :
    mergeIncStep incs fr = incs ++ [fr] := by
  unfold mergeIncStep
  rw [findIdx_sameJoin_none incs fr 0 h]

theorem findIdx_sameJoin_split (l1 l2 : List Item) (t fr : Item) (k : Nat)
    (h1 : ∀ u ∈ l1, sameJoin u fr = false) (ht : sameJoin t fr = true) :
    (l1 ++ t :: l2).findIdx? (fun u => sameJoin u fr) k = some (k + l1.length) := by
  induction l1 generalizing k with
  | nil => rw [List.nil_append, List.findIdx?_cons, ht]; rfl
  | cons u us ih =>
    rw [List.cons_append, List.findIdx?_cons, h1 u (by simp)]
    simp only [Bool.false_eq_true, if_false]
    rw [ih (k + 1) (fun v hv => h1 v (by simp [hv]))]
    congr 1
    simp [List.length_cons]
    omega

theorem get_append_cons (l1 l2 : List Item) (t : Item) :
    (l1 ++ t :: l2).get? l1.length = some t := by
  induction l1 with
  | nil => rfl
  | cons u us ih => exact ih

theorem set_append_cons (l1 l2 : List Item) (t v : Item) :
    (l1 ++ t :: l2).set l1.length v = l1 ++ v :: l2 := by
  induction l1 with
  | nil => rfl
  | cons u us ih => simp only [List.cons_append, List.length_cons, List.set_cons_succ, ih]

theorem mergeIncStep_match (l1 l2 : List Item) (t fr : Item)
    (h1 : ∀ u ∈ l1, sameJoin u fr = false) (ht : sameJoin t fr = true) :
    mergeIncStep (l1 ++ t :: l2) fr = l1 ++ mergeClauses t fr :: l2 := by
  unfold mergeIncStep
  rw [findIdx_sameJoin_split l1 l2 t fr 0 h1 ht]
  simp only [Nat.zero_add]
  simp only [get_append_cons, set_append_cons]

/-- Claim C10: when the Requirement Merger merges a dependency into a
consumer, a present consumer attribute list is deleted when the dependency's
is absent (absent meaning all fields absorbs any explicit list); the union
is computed only when both lists are present; and an absent consumer list
stays absent regardless of the dependency. -/
theorem c10_absent_attributes_absorb (item f : Item) :
    (∀ l, item.attributes = some l → f.attributes = none →
      (mergeClauses item f).attributes = none)
    ∧ (∀ l m, item.attributes = some l → f.attributes = some m →
      (mergeClauses item f).attributes = some (lodashUnion l m))
    ∧ (item.attributes = none → (mergeClauses item f).attributes = none) := by
  refine ⟨?_, ?_, ?_⟩
  · intro l hi hf
    rw [mergeClauses_attributes, hi, hf]
  · intro l m hi hf
    rw [mergeClauses_attributes, hi, hf]
  · intro hi
    rw [mergeClauses_attributes, hi]

theorem c10_absent_attributes_absorb_witness :
    ((virtualField (some ["a"]) none none).attributes = some ["a"]
      ∧ (virtualField none none none).attributes = none
      ∧ (mergeClauses (virtualField (some ["a"]) none none)
          (virtualField none none none)).attributes = none)
    ∧ (mergeClauses (virtualField (some ["a"]) none none)
        (virtualField (some ["b"]) none none)).attributes = some (lodashUnion ["a"] ["b"])
    ∧ (mergeClauses (virtualField none none none)
        (virtualField (some ["b"]) none none)).attributes = none := by
  refine ⟨⟨rfl, rfl, ?_⟩, ?_, ?_⟩
  · exact (c10_absent_attributes_absorb _ _).1 ["a"] rfl rfl
  · exact (c10_absent_attributes_absorb _ _).2.1 ["a"] ["b"] rfl rfl
  · exact (c10_absent_attributes_absorb _ _).2.2 rfl

/-- Claim C4: merging requirement sets with both attribute lists present
yields the ordered set union (consumer first, then the dependency's entries
not already present, no duplicates); the spec's concrete instance; and in
the diamond schema the shared dependency's attributes appear exactly once
in each consumer's closed set. -/
theorem c4_attribute_union (a b : List String) (h : a.Nodup) :
    (∀ (item f : Item), item.attributes = some a → f.attributes = some b →
      (mergeClauses item f).attributes = some (lodashUnion a b))
    ∧ lodashUnion a b = a ++ (lodashUniq b).filter (fun y => y ∉ a)
    ∧ (lodashUnion a b).Nodup
    ∧ (∀ x, x ∈ lodashUnion a b ↔ x ∈ a ∨ x ∈ b)
    ∧ lodashUnion ["x", "y"] ["y", "z"] = ["x", "y", "z"]
    ∧ (initVirtualFields 50 schDiamond).2 = none
    ∧ ((initVirtualFields 50 schDiamond).1
        |> fun s => (fieldAt s "D" "A").map Item.attributes) = some (some ["x", "c1", "c2"])
    ∧ ((initVirtualFields 50 schDiamond).1
        |> fun s => (fieldAt s "D" "B").map Item.attributes) = some (some ["c1", "c2"])
    ∧ ((initVirtualFields 50 schDiamond).1
        |> fun s => (fieldAt s "D" "A").map (fun i => (i.attributes.getD []).count "c1"))
        = some 1
    ∧ ((initVirtualFields 50 schDiamond).1
        |> fun s => (fieldAt s "D" "A").map (fun i => (i.attributes.getD []).count "c2"))
        = some 1
    ∧ ((initVirtualFields 50 schDiamond).1
        |> fun s => (fieldAt s "D" "B").map (fun i => (i.attributes.getD []).count "c1"))
        = some 1
    ∧ ((initVirtualFields 50 schDiamond).1
        |> fun s => (fieldAt s "D" "B").map (fun i => (i.attributes.getD []).count "c2"))
        = some 1 := by
  refine ⟨?_, lodashUnion_eq a b h, nodup_lodashUnion a b, mem_lodashUnion a b,
    rfl, rfl, rfl, rfl, rfl, rfl, rfl, rfl⟩
  intro item f hi hf
  rw [mergeClauses_attributes, hi, hf]

theorem c4_attribute_union_witness :
    (["p", "q"] : List String).Nodup
    ∧ lodashUnion ["p", "q"] ["q", "r"]
        = ["p", "q"] ++ (lodashUniq ["q", "r"]).filter (fun y => y ∉ (["p", "q"] : List String)) := by
  exact ⟨by decide, (c4_attribute_union ["p", "q"] ["q", "r"] (by decide)).2.1⟩

/-- The join-merge identity check of the source: two include entries are
the same exactly when both the target model reference and the alias are
equal. -/
theorem sameJoin_iff (t fr : Item) :
    sameJoin t fr = true ↔ (t.modelRef = fr.modelRef ∧ t.asName = fr.asName) := by
  unfold sameJoin
  simp [Bool.and_eq_true]

/-- Claim C5: join entries are identified exactly by (target entity,
alias): a matching incoming join is merged recursively into the first
matching entry in place, and a non-matching one (including one with the
same target but a different alias) is appended as a distinct entry. -/
theorem c5_join_merge_by_identity :
    (∀ t fr : Item, sameJoin t fr = true ↔ (t.modelRef = fr.modelRef ∧ t.asName = fr.asName))
    ∧ (∀ (item f : Item) (incs : List Item) (j : Item),
        item.includes = some incs → f.includes = some [j] →
        (∀ t ∈ incs, sameJoin t j = false) →
        (mergeClauses item f).includes = some (incs ++ [j]))
    ∧ (∀ (item f : Item) (l1 l2 : List Item) (t j : Item),
        item.includes = some (l1 ++ t :: l2) → f.includes = some [j] →
        (∀ u ∈ l1, sameJoin u j = false) → sameJoin t j = true →
        (mergeClauses item f).includes = some (l1 ++ mergeClauses t j :: l2))
    ∧ (mergeClauses
          (virtualField (some []) (some [incObj "P" none (some ["a"]) none]) none)
          (virtualField (some []) (some [incObj "P" none (some ["b"]) none]) none)).includes
        = some [incObj "P" none (some ["a", "b"]) none]
    ∧ (mergeClauses
          (virtualField (some []) (some [incObj "P" none (some ["a"]) none]) none)
          (virtualField (some []) (some [incObj "P" (some "boss") (some ["b"]) none]) none)).includes
        = some [incObj "P" none (some ["a"]) none, incObj "P" (some "boss") (some ["b"]) none] := by
  refine ⟨sameJoin_iff, ?_, ?_, rfl, rfl⟩
  · intro item f incs j hi hf hno
    rw [mergeClauses_includes, hf, hi]
    show some (mergeIncludes incs [j]) = some (incs ++ [j])
    rw [mergeIncludes_cons, mergeIncStep_no_match incs j hno, mergeIncludes_nil]
  · intro item f l1 l2 t j hi hf h1 ht
    rw [mergeClauses_includes, hf, hi]
    show some (mergeIncludes (l1 ++ t :: l2) [j]) = some (l1 ++ mergeClauses t j :: l2)
    rw [mergeIncludes_cons, mergeIncStep_match l1 l2 t j h1 ht, mergeIncludes_nil]

theorem c5_join_merge_by_identity_witness :
    ((virtualField none (some []) none).includes = some []
      ∧ (virtualField none (some [incObj "P" none none none]) none).includes
          = some [incObj "P" none none none]
      ∧ (mergeClauses (virtualField none (some []) none)
          (virtualField none (some [incObj "P" none none none]) none)).includes
          = some [incObj "P" none none none]) := by
  refine ⟨rfl, rfl, ?_⟩
  have h := (c5_join_merge_by_identity).2.1 (virtualField none (some []) none)
    (virtualField none (some [incObj "P" none none none]) none) [] (incObj "P" none none none)
    rfl rfl (by intro t ht; simp at ht)
  simpa using h

/-- The schema refuting claim C6: F's attribute closure pulls in G, and G
declares order clauses of its own. -/
def schC6 : Schema :=
  [⟨"M", [("x", baseField), ("y", baseField),
      ("F", virtualField (some ["G"]) none (some [.arr [.str "x", .str "ASC"]])),
      ("G", virtualField (some ["y"]) none (some [.arr [.str "y", .str "DESC"]]))], []⟩]

/-- Counterexample to claim C6: at schema-closure time the merger does not
append the dependency's order entries.  After initialization F's order list
is its own original clause only, although its dependency G declares an
order clause; the claim predicts the concatenation. -/
theorem c6_counterexample :
    (initVirtualFields 50 schC6).2 = none
    ∧ ((initVirtualFields 50 schC6).1 |> fun s => (fieldAt s "M" "F").map Item.order)
        = some (some [.arr [.str "x", .str "ASC"]])
    ∧ ((initVirtualFields 50 schC6).1 |> fun s => (fieldAt s "M" "G").map Item.order)
        = some (some [.arr [.str "y", .str "DESC"]])
    ∧ (some [OrderEntry.arr [.str "x", .str "ASC"]]
        ≠ some [OrderEntry.arr [.str "x", .str "ASC"], OrderEntry.arr [.str "y", .str "DESC"]]) := by
  refine ⟨rfl, rfl, rfl, by decide⟩

/-- Claim C6 amended: the closure-time Requirement Merger does not merge
order lists at all - the consumer's order entries are left unchanged and
the dependency's order entries are ignored (only attributes and includes
are merged).  (The spec-modelled query-time merger does concatenate.) -/
theorem c6_amended_closure_merge_keeps_order (item f : Item) :
    (mergeClauses item f).order = item.order
    ∧ ∀ (co fo : List OrderEntry), item.order = some co → f.order = some fo →
        (sharedMergeClauses item f).order = some (co ++ fo) := by
  constructor
  · exact mergeClauses_order item f
  · intro co fo hi hf
    cases item with
    | mk g m a v attrs incs ord vg =>
      cases f with
      | mk ff fm fa fv fattrs fincs ford fg =>
        cases hi
        cases hf
        cases attrs <;> cases fattrs <;> cases fincs <;> cases incs <;> rfl

theorem c6_amended_closure_merge_keeps_order_witness :
    (virtualField (some []) none (some [])).order = some []
    ∧ (sharedMergeClauses (virtualField (some []) none (some []))
        (virtualField (some []) none (some []))).order = some ([] ++ []) := by
  exact ⟨rfl, (c6_amended_closure_merge_keeps_order _ _).2 [] [] rfl rfl⟩

/-- Claim C1: the end-to-end scenario.  Initializing the Person/Task schema
is a fixed point (the declarations are already normalized), and expanding
the request for Label against Task rewrites it to the base attribute name
plus the join to Person with its name, with injected list [Label]. -/
theorem c1_end_to_end_expansion :
    initVirtualFields 50 schEnd = (schEnd, none)
    ∧ expandRequest schEnd 10 taskM reqEnd
        = .ok (.mk .objF none none false (some ["name"])
            (some [incObj "Person" none (some ["name"]) none]) none ["Label"])
    ∧ (expandRequest schEnd 10 taskM reqEnd).map Item.virtualGet = .ok ["Label"]
    ∧ (expandRequest schEnd 10 taskM reqEnd).map Item.attributes = .ok (some ["name"]) := by
  exact ⟨rfl, rfl, rfl, rfl⟩

/-- Counterexample to claim C8: on the entry [name, foo] the hook's order
normalization upper-cases the direction token unconditionally instead of
appending ASC after a token that does not read ASC or DESC, as the
registration-time normalization does. -/
theorem c8_counterexample :
    hookNormalizeEntry (.arr [.str "name", .str "foo"]) = .ok (.arr [.str "name", .str "FOO"])
    ∧ normalizeDirection "Task" "F" [.str "name", .str "foo"]
        = .ok [.str "name", .str "foo", .str "ASC"]
    ∧ (OrderEntry.arr [.str "name", .str "FOO"]
        ≠ OrderEntry.arr [.str "name", .str "foo", .str "ASC"]) := by
  exact ⟨rfl, rfl, by decide⟩

/-- Claim C8 amended: the hook passes raw strings verbatim and wraps a
non-array entry with ASC like registration does, but for a structured array
it appends ASC exactly when the entry has one element or its second-to-last
element is not a string, and otherwise upper-cases the last element
unconditionally, even when it does not read ASC or DESC; registration
instead appends ASC after such a token. -/
theorem c8_amended_hook_normalization :
    (∀ s, hookNormalizeEntry (.rawStr s) = .ok (.rawStr s))
    ∧ (∀ e, hookNormalizeEntry (.single e) = .ok (.arr [e, .str "ASC"]))
    ∧ (∀ es, es ≠ [] → (es.length = 1 ∨ isStrElem es[es.length - 2]? = false) →
        hookNormalizeEntry (.arr es) = .ok (.arr (convertLeadInst (es ++ [.str "ASC"]))))
    ∧ (∀ es s, es ≠ [] → es.length ≠ 1 → isStrElem es[es.length - 2]? = true →
        es.getLast? = some (.str s) →
        hookNormalizeEntry (.arr es) = .ok (.arr (convertLeadInst (es.dropLast ++ [.str (upperStr s)]))))
    ∧ (∀ s, ["ASC", "DESC"].contains (upperStr s) = false →
        normalizeDirection "m" "f" [.str "name", .str s] = .ok [.str "name", .str s, .str "ASC"]) := by
  refine ⟨fun s => rfl, fun e => rfl, ?_, ?_, ?_⟩
  · intro es hne hcond
    have hie : es.isEmpty = false := by
      cases es with
      | nil => exact absurd rfl hne
      | cons a as => rfl
    have hb : (es.length == 1 || !isStrElem (es.get? (es.length - 2))) = true := by
      rcases hcond with h | h
      · simp [h]
      · simp [List.get?_eq_getElem?, h]
    simp only [hookNormalizeEntry, hie]
    simp only [Bool.false_eq_true, if_false]
    rw [if_pos hb]
    rfl
  · intro es s hne hlen hstr hlast
    have hie : es.isEmpty = false := by
      cases es with
      | nil => exact absurd rfl hne
      | cons a as => rfl
    have hb : (es.length == 1 || !isStrElem (es.get? (es.length - 2))) = true → False := by
      intro hb
      rcases Bool.or_eq_true_iff.mp hb with h | h
      · exact hlen (by simpa using h)
      · rw [List.get?_eq_getElem?, hstr] at h
        simp at h
    simp only [hookNormalizeEntry, hie]
    simp only [Bool.false_eq_true, if_false]
    rw [if_neg hb]
    rw [hlast]
    rfl
  · intro s hs
    have h1 : ([OrderElem.str "name", OrderElem.str s] : List OrderElem).isEmpty = false := rfl
    simp only [normalizeDirection, h1]
    simp [hs]
    refine ⟨fun h => ?_, fun h => ?_⟩ <;> rw [h] at hs <;> simp at hs

theorem c8_amended_hook_normalization_witness :
    ([OrderElem.str "name"] : List OrderElem) ≠ []
    ∧ hookNormalizeEntry (.arr [.str "name"])
        = .ok (.arr (convertLeadInst ([OrderElem.str "name"] ++ [.str "ASC"]))) := by
  refine ⟨by decide, ?_⟩
  exact (c8_amended_hook_normalization).2.2.1 [.str "name"] (by decide) (Or.inl rfl)

/-- Counterexample to claim C9: initialization of schPartial fails with a
MissingOrderClause error, yet F's field definition has already been closed
in place (its attribute list reads the inherited base field, not the
original Derived reference), so partial registration is retained. -/
theorem c9_counterexample :
    (initVirtualFields 50 schPartial).2 = some (.missingOrderClause "M" "F" "M" "H")
    ∧ ((initVirtualFields 50 schPartial).1 |> fun s => (fieldAt s "M" "F").map Item.attributes)
        = some (some ["x"])
    ∧ ((fieldAt schPartial "M" "F").map Item.attributes) = some (some ["G"])
    ∧ ((some (some ["x"]) : Option (Option (List String))) ≠ some (some ["G"])) := by
  exact ⟨rfl, rfl, rfl, by decide⟩

/-- Claim C9 amended: any validation or cycle error aborts the remaining
initialization work and is surfaced as the result error, but in-place
mutations already applied are retained - the schema may be left partially
normalized or partially closed, as the error-state schemas below show. -/
theorem c9_amended_error_aborts_keeps_state :
    (∀ fuel sch s1 e, parsePhase sch = (s1, some e) →
        initVirtualFields fuel sch = (s1, some e))
    ∧ (∀ fuel sch s1 s2 e, parsePhase sch = (s1, none) →
        inheritIncludePhase fuel s1 = (s2, some e) →
        initVirtualFields fuel sch = (s2, some e))
    ∧ (∀ fuel sch s1 s2, parsePhase sch = (s1, none) →
        inheritIncludePhase fuel s1 = (s2, none) →
        initVirtualFields fuel sch = inheritOrderPhase s2)
    ∧ ((initVirtualFields 50 schPartial).2 = some (.missingOrderClause "M" "F" "M" "H")
        ∧ ((initVirtualFields 50 schPartial).1
            |> fun s => (fieldAt s "M" "F").map Item.attributes) = some (some ["x"])) := by
  refine ⟨?_, ?_, ?_, rfl, rfl⟩
  · intro fuel sch s1 e hp
    unfold initVirtualFields
    rw [hp]
  · intro fuel sch s1 s2 e hp hi
    unfold initVirtualFields
    rw [hp]
    show (match inheritIncludePhase fuel s1 with
      | (s2, some e) => (s2, some e)
      | (s2, none) => inheritOrderPhase s2) = (s2, some e)
    rw [hi]
  · intro fuel sch s1 s2 hp hi
    unfold initVirtualFields
    rw [hp]
    show (match inheritIncludePhase fuel s1 with
      | (s2, some e) => (s2, some e)
      | (s2, none) => inheritOrderPhase s2) = inheritOrderPhase s2
    rw [hi]

/-- The schema whose parse fails at the second virtual field: used as the
witness input for the amended claim C9. -/
def schBadAttr : Schema :=
  [⟨"M", [("x", baseField), ("F", virtualField (some ["nope"]) none none)], []⟩]

theorem c9_amended_error_aborts_keeps_state_witness :
    parsePhase schBadAttr = (schBadAttr, some (.attrNonexistent "M" "F" "M" "nope"))
    ∧ initVirtualFields 7 schBadAttr
        = (schBadAttr, some (.attrNonexistent "M" "F" "M" "nope")) := by
  refine ⟨rfl, ?_⟩
  exact (c9_amended_error_aborts_keeps_state).1 7 schBadAttr schBadAttr
    (.attrNonexistent "M" "F" "M" "nope") rfl

/-- An order entry whose terminal resolves to a non-virtual field: the
substitution loop keeps it unchanged and moves on. -/
def keepsEntry (sch : Schema) (model : ModelDef) (e : OrderEntry) : Prop :=
  ∃ om key f, resolveOrderRef sch model e = .ok (om, key)
    ∧ lookupAttr om key = some f ∧ f.virtual = false

theorem substOrders_nil (sch : Schema) (model : ModelDef) (fn : String)
    (done : List OrderEntry) : substOrders sch model fn done [] = .ok done := rfl

theorem substOrders_cons_keep (sch : Schema) (model : ModelDef) (fn : String)
    (done rest : List OrderEntry) (c : OrderEntry) (h : keepsEntry sch model c) :
    substOrders sch model fn done (c :: rest)
      = substOrders sch model fn (done ++ [c]) rest := by
  rcases h with ⟨om, key, f, hres, hl, hv⟩
  simp only [substOrders, hres]
  show (match lookupAttr om key with
    | none => Except.error VErr.typeErr
    | some ff => _) = _
  rw [hl]
  simp only [hv, Bool.false_eq_true, if_false]

theorem substOrders_cons_subst (sch : Schema) (model : ModelDef) (fn : String)
    (done rest : List OrderEntry) (es : List OrderElem) (om : ModelDef)
    (key : String) (ff : Item) (fs : List OrderEntry)
    (hres : resolveOrderRef sch model (.arr es) = .ok (om, key))
    (hl : lookupAttr om key = some ff) (hv : ff.virtual = true)
    (hord : ff.order = some fs) (hne : fs ≠ []) :
    substOrders sch model fn done (.arr es :: rest)
      = substOrders sch model fn
          (done ++ fs.map (concatEntry (entryLead (.arr es)))) rest := by
  simp only [substOrders, hres]
  show (match lookupAttr om key with
    | none => Except.error VErr.typeErr
    | some ff => _) = _
  rw [hl]
  simp only [hv, if_true, hord, Option.getD_some]
  rw [if_neg (by simpa using hne)]

theorem substOrders_keep_all (sch : Schema) (model : ModelDef) (fn : String)
    (l : List OrderEntry) (h : ∀ e ∈ l, keepsEntry sch model e) :
    ∀ done, substOrders sch model fn done l = .ok (done ++ l) := by
  induction l with
  | nil => intro done; simp [substOrders_nil]
  | cons c rest ih =>
    intro done
    rw [substOrders_cons_keep sch model fn done rest c (h c (by simp))]
    rw [ih (fun e he => h e (by simp [he])) (done ++ [c])]
    simp

/-- Claim C7, general form: in the substitution pass, a structured clause
whose terminal field is a virtual field with its own (nonempty) order list
is removed and replaced, at the same position, by one clause per entry of
that list, each prefixed with the original clause's leading join path;
clauses before and after it whose terminals are not virtual stay in place,
and the inserted block is not rescanned. -/
theorem c7_order_substitution (sch : Schema) (model : ModelDef) (fn : String)
    (pre post : List OrderEntry) (es : List OrderElem) (om : ModelDef)
    (key : String) (ff : Item) (fs : List OrderEntry)
    (hpre : ∀ e ∈ pre, keepsEntry sch model e)
    (hpost : ∀ e ∈ post, keepsEntry sch model e)
    (hres : resolveOrderRef sch model (.arr es) = .ok (om, key))
    (hl : lookupAttr om key = some ff) (hv : ff.virtual = true)
    (hord : ff.order = some fs) (hne : fs ≠ []) :
    substOrders sch model fn [] (pre ++ .arr es :: post)
      = .ok (pre ++ fs.map (concatEntry (es.take (es.length - 2))) ++ post)
    ∧ ((initVirtualFields 30 schOrd).1
        |> fun s => (fieldAt s "Task" "Title").map Item.order)
        = some (some [.arr [.str "name", .str "DESC"]]) := by
  refine ⟨?_, rfl⟩
  have haux : ∀ (pre2 : List OrderEntry) (done : List OrderEntry),
      (∀ e ∈ pre2, keepsEntry sch model e) →
      substOrders sch model fn done (pre2 ++ .arr es :: post)
        = substOrders sch model fn (done ++ pre2) (.arr es :: post) := by
    intro pre2
    induction pre2 with
    | nil => intro done _; simp
    | cons c rest ih =>
      intro done hk
      rw [List.cons_append]
      rw [substOrders_cons_keep sch model fn done _ c (hk c (by simp))]
      rw [ih (done ++ [c]) (fun e he => hk e (by simp [he]))]
      simp
  rw [haux pre [] hpre]
  simp only [List.nil_append]
  rw [substOrders_cons_subst sch model fn pre post es om key ff fs hres hl hv hord hne]
  rw [substOrders_keep_all sch model fn post hpost]
  simp [entryLead]

theorem c7_order_substitution_witness :
    (∀ e ∈ ([] : List OrderEntry), keepsEntry schOrd taskOrdM e)
    ∧ resolveOrderRef schOrd taskOrdM (.arr [.str "Label", .str "ASC"])
        = .ok (taskOrdM, "Label")
    ∧ lookupAttr taskOrdM "Label" = some labelOrd
    ∧ labelOrd.virtual = true
    ∧ labelOrd.order = some [.arr [.str "name", .str "DESC"]]
    ∧ substOrders schOrd taskOrdM "Title" [] [.arr [.str "Label", .str "ASC"]]
        = .ok [.arr [.str "name", .str "DESC"]] := by
  have hmain := (c7_order_substitution schOrd taskOrdM "Title" [] []
    [.str "Label", .str "ASC"] taskOrdM "Label" labelOrd
    [.arr [.str "name", .str "DESC"]]
    (by intro e he; simp at he) (by intro e he; simp at he)
    rfl rfl rfl rfl (by decide)).1
  refine ⟨by intro e he; simp at he, rfl, rfl, rfl, rfl, ?_⟩
  simpa using hmain

/-- The request refuting claim C2: duplicate base attribute entries before
a virtual one. -/
def reqDup : Item := .mk .objF none none false (some ["name", "name", "Label"]) none none []

/-- A schema whose closure leaks a Derived reference for the same reason:
F declares a duplicated base attribute before its two Derived references. -/
def schDupClose : Schema :=
  [⟨"M", [("a", baseField), ("c", baseField), ("x", baseField),
      ("V1", virtualField (some ["c"]) none none),
      ("V2", virtualField (some ["x"]) none none),
      ("F", virtualField (some ["a", "a", "V1", "V2"]) none none)], []⟩]

/-- Counterexample to claim C2: schEnd is closed and every entry of reqDup
names an existing Task field, yet expansion returns an attribute list that
still contains the Derived name Label: the union used while merging
deduplicates the already-scanned prefix, so the splice removes the wrong
element and the cursor skips the virtual entry. -/
theorem c2_counterexample :
    expandRequest schEnd 10 taskM reqDup
      = .ok (.mk .objF none none false (some ["name", "Label"])
          (some [incObj "Person" none (some ["name"]) none]) none ["Label"])
    ∧ virtualAt schEnd "Task" "Label" = true
    ∧ (fieldAt schEnd "Task" "name").isSome = true
    ∧ (fieldAt schEnd "Task" "Label").isSome = true
    ∧ (initVirtualFields 50 schDupClose).2 = none
    ∧ ((initVirtualFields 50 schDupClose).1
        |> fun s => (fieldAt s "M" "F").map Item.attributes) = some (some ["a", "V2", "c"])
    ∧ virtualAt schDupClose "M" "V2" = true := by
  exact ⟨rfl, rfl, rfl, rfl, rfl, rfl, rfl⟩

mutual

/-- No Derived-field name occurs in any attribute list of the tree, and
every include carries a resolved model reference. -/
def cleanTree (sch : Schema) (mName : String) : Item → Bool
  | .mk _f _m _a _v attrs incs _ord _vg =>
    (match attrs with
     | none => true
     | some l => l.all (fun a => !virtualAt sch mName a))
    && (match incs with
        | none => true
        | some l => cleanList sch l)

def cleanList (sch : Schema) : List Item → Bool
  | [] => true
  | inc :: rest =>
    (match inc.modelRef with
     | some (.byRef n) => cleanTree sch n inc
     | _ => false)
    && cleanList sch rest

end

mutual

/-- Every attribute list of the tree is duplicate-free, or already free of
Derived references; this is the discipline under which the splice-scan
cursor of the source is sound. -/
def goodTree (sch : Schema) (mName : String) : Item → Bool
  | .mk _f _m _a _v attrs incs _ord _vg =>
    (match attrs with
     | none => true
     | some l => decide l.Nodup || l.all (fun a => !virtualAt sch mName a))
    && (match incs with
        | none => true
        | some l => goodList sch l)

def goodList (sch : Schema) : List Item → Bool
  | [] => true
  | inc :: rest =>
    (match inc.modelRef with
     | some (.byRef n) => goodTree sch n inc
     | _ => true)
    && goodList sch rest

end

/-- The clean condition of one include entry. -/
def cleanEntry (sch : Schema) (inc : Item) : Bool :=
  match inc.modelRef with
  | some (.byRef n) => cleanTree sch n inc
  | _ => false

/-- The good condition of one include entry. -/
def goodEntry (sch : Schema) (inc : Item) : Bool :=
  match inc.modelRef with
  | some (.byRef n) => goodTree sch n inc
  | _ => true

theorem cleanList_iff (sch : Schema) (l : List Item) :
    cleanList sch l = true ↔ ∀ e ∈ l, cleanEntry sch e = true := by
  induction l with
  | nil => simp [cleanList]
  | cons inc rest ih =>
    show (_ && cleanList sch rest) = true ↔ _
    rw [Bool.and_eq_true, ih]
    constructor
    · rintro ⟨h1, h2⟩ e he
      rcases List.mem_cons.mp he with rfl | he2
      · exact h1
      · exact h2 e he2
    · intro h
      exact ⟨h inc (by simp), fun e he => h e (by simp [he])⟩

theorem goodList_iff (sch : Schema) (l : List Item) :
    goodList sch l = true ↔ ∀ e ∈ l, goodEntry sch e = true := by
  induction l with
  | nil => simp [goodList]
  | cons inc rest ih =>
    show (_ && goodList sch rest) = true ↔ _
    rw [Bool.and_eq_true, ih]
    constructor
    · rintro ⟨h1, h2⟩ e he
      rcases List.mem_cons.mp he with rfl | he2
      · exact h1
      · exact h2 e he2
    · intro h
      exact ⟨h inc (by simp), fun e he => h e (by simp [he])⟩

theorem cleanTree_eq (sch : Schema) (mName : String) (item : Item) :
    cleanTree sch mName item =
      ((match item.attributes with
        | none => true
        | some l => l.all (fun a => !virtualAt sch mName a))
       && (match item.includes with
           | none => true
           | some l => cleanList sch l)) := by
  cases item with
  | mk f m a v attrs incs ord vg => cases attrs <;> cases incs <;> rfl

theorem goodTree_eq (sch : Schema) (mName : String) (item : Item) :
    goodTree sch mName item =
      ((match item.attributes with
        | none => true
        | some l => decide l.Nodup || l.all (fun a => !virtualAt sch mName a))
       && (match item.includes with
           | none => true
           | some l => goodList sch l)) := by
  cases item with
  | mk f m a v attrs incs ord vg => cases attrs <;> cases incs <;> rfl

/-- The two mergers preserve the identity and type of the object merged
into: form, model reference, alias, and virtual flag are unchanged. -/
theorem mergeClauses_skeleton (i f : Item) :
    (mergeClauses i f).form = i.form ∧ (mergeClauses i f).modelRef = i.modelRef
    ∧ (mergeClauses i f).asName = i.asName ∧ (mergeClauses i f).virtual = i.virtual := by
  cases i with
  | mk g m a v attrs incs ord vg =>
    cases f with
    | mk ff fm fa fv fattrs fincs ford fg =>
      cases attrs <;> cases fattrs <;> cases fincs <;> cases incs
        <;> exact ⟨rfl, rfl, rfl, rfl⟩

theorem sharedMergeClauses_skeleton (i f : Item) :
    (sharedMergeClauses i f).form = i.form
    ∧ (sharedMergeClauses i f).modelRef = i.modelRef
    ∧ (sharedMergeClauses i f).asName = i.asName
    ∧ (sharedMergeClauses i f).virtual = i.virtual := by
  cases i with
  | mk g m a v attrs incs ord vg =>
    cases f with
    | mk ff fm fa fv fattrs fincs ford fg =>
      cases attrs <;> cases fattrs <;> cases ford <;> cases fincs <;> cases incs
        <;> exact ⟨rfl, rfl, rfl, rfl⟩

/-- Attribute component of the spec-modelled query-time merger (same as
the closure-time merger). -/
theorem sharedMergeClauses_attributes (item f : Item) :
    (sharedMergeClauses item f).attributes =
      match item.attributes, f.attributes with
      | none, _ => none
      | some _, none => none
      | some a, some b => some (lodashUnion a b) := by
  cases item with
  | mk g m a v attrs incs ord vg =>
    cases f with
    | mk ff fm fa fv fattrs fincs ford fg =>
      cases attrs <;> cases fattrs <;> cases ford <;> cases fincs <;> cases incs <;> rfl

/-- Include component of the spec-modelled query-time merger. -/
theorem sharedMergeClauses_includes (item f : Item) :
    (sharedMergeClauses item f).includes =
      match f.includes with
      | none => item.includes
      | some fi =>
        match item.includes with
        | none => some fi
        | some ii => some (sharedMergeIncludes ii fi) := by
  cases item with
  | mk g m a v attrs incs ord vg =>
    cases f with
    | mk ff fm fa fv fattrs fincs ford fg =>
      cases attrs <;> cases fattrs <;> cases ford <;> cases fincs <;> cases incs <;> rfl

/-- Shift of the findIdx? start index. -/
theorem findIdx_shift {α : Type} (p : α → Bool) (l : List α) (k : Nat) :
    l.findIdx? p (k + 1) = (l.findIdx? p k).map (· + 1) := by
  induction l generalizing k with
  | nil => rfl
  | cons x xs ih =>
    rw [List.findIdx?_cons, List.findIdx?_cons]
    by_cases hx : p x
    · rw [hx]; rfl
    · simp only [hx, Bool.false_eq_true, if_false]
      exact ih (k + 1)

theorem mergeIncStep_nil (fr : Item) : mergeIncStep [] fr = [fr] := rfl

/-- The include-merge step on a cons cell: merge into the head when it
matches, otherwise recurse on the tail. -/
theorem mergeIncStep_cons (t : Item) (ts : List Item) (fr : Item) :
    mergeIncStep (t :: ts) fr =
      (if sameJoin t fr then mergeClauses t fr :: ts else t :: mergeIncStep ts fr) := by
  unfold mergeIncStep
  rw [List.findIdx?_cons]
  by_cases hs : sameJoin t fr
  · rw [hs]
    simp [hs]
  · simp only [hs, Bool.false_eq_true, if_false]
    rw [show (0 + 1) = (0 : Nat) + 1 from rfl, findIdx_shift]
    cases hidx : ts.findIdx? (fun u => sameJoin u fr) 0 with
    | none => simp [hs]
    | some j =>
      simp only [Option.map_some, hs]
      cases hget : ts[j]? with
      | none => simp [List.get?_eq_getElem?, hget]
      | some u => simp [List.get?_eq_getElem?, hget, List.set_cons_succ]

theorem sizeOf_mem_includes {inc : Item} {l : List Item} (h : inc ∈ l)
    (f : IForm) (m : Option MRef) (a : Option String) (v : Bool)
    (attrs : Option (List String)) (ord : Option (List OrderEntry)) (vg : List String) :
    sizeOf inc < sizeOf (Item.mk f m a v attrs (some l) ord vg) := by
  have h1 := List.sizeOf_lt_of_mem h
  simp [Item.mk.sizeOf_spec]
  omega

theorem one_le_sizeOf_item (x : Item) : 1 ≤ sizeOf x := by
  cases x with
  | mk f m a v attrs incs ord vg => simp [Item.mk.sizeOf_spec]; omega

theorem modelRef_eq_of_sameJoin {t fr : Item} (h : sameJoin t fr = true) :
    t.modelRef = fr.modelRef := ((sameJoin_iff t fr).mp h).1

/-- Goodness is preserved by one include-merge step, given goodness of the
recursive merger on the incoming entry. -/
theorem good_mergeIncStep (sch : Schema)
    (frInc : Item) (hfr : goodEntry sch frInc = true)
    (hmerge : ∀ mName item, goodTree sch mName item = true →
      goodTree sch mName frInc = true →
      goodTree sch mName (mergeClauses item frInc) = true) :
    ∀ ii, goodList sch ii = true → goodList sch (mergeIncStep ii frInc) = true := by
  intro ii
  induction ii with
  | nil =>
    intro _
    rw [mergeIncStep_nil, goodList_iff]
    intro e he
    simp only [List.mem_singleton] at he
    exact he ▸ hfr
  | cons t ts ih =>
    intro hgood
    rw [goodList_iff] at hgood
    rw [mergeIncStep_cons]
    by_cases hs : sameJoin t frInc
    · rw [if_pos hs, goodList_iff]
      intro e he
      rcases List.mem_cons.mp he with rfl | he2
      · have ht : goodEntry sch t = true := hgood t (by simp)
        have hmr := (mergeClauses_skeleton t frInc).2.1
        unfold goodEntry at ht ⊢
        rw [hmr]
        cases hmc : t.modelRef with
        | none => rfl
        | some r =>
          cases r with
          | byName s => rfl
          | byRef nm =>
            rw [hmc] at ht
            have hfr2 : goodTree sch nm frInc = true := by
              have := modelRef_eq_of_sameJoin hs
              unfold goodEntry at hfr
              rw [← this, hmc] at hfr
              exact hfr
            exact hmerge nm t ht hfr2
      · exact hgood e (by simp [he2])
    · rw [if_neg hs, goodList_iff]
      intro e he
      rcases List.mem_cons.mp he with rfl | he2
      · exact hgood e (by simp)
      · have hts : goodList sch ts = true := by
          rw [goodList_iff]; intro u hu; exact hgood u (by simp [hu])
        have := ih hts
        rw [goodList_iff] at this
        exact this e he2

/-- The closure-time merger preserves goodness of the whole tree. -/
theorem good_mergeClauses (sch : Schema) :
    ∀ (n : Nat) (fr : Item), sizeOf fr ≤ n →
      ∀ (mName : String) (item : Item), goodTree sch mName item = true →
        goodTree sch mName fr = true →
        goodTree sch mName (mergeClauses item fr) = true := by
  intro n
  induction n with
  | zero =>
    intro fr hle
    have := one_le_sizeOf_item fr
    omega
  | succ n ih =>
    intro fr hle mName item hgi hgf
    rw [goodTree_eq] at hgi hgf ⊢
    rw [Bool.and_eq_true] at hgi hgf
    obtain ⟨hgiA, hgiI⟩ := hgi
    obtain ⟨hgfA, hgfI⟩ := hgf
    rw [Bool.and_eq_true]
    refine ⟨?_, ?_⟩
    · rw [mergeClauses_attributes]
      cases hA : item.attributes with
      | none => rfl
      | some a =>
        cases hB : fr.attributes with
        | none => rfl
        | some b =>
          simp [nodup_lodashUnion]
    · rw [mergeClauses_includes]
      cases fr with
      | mk ff fm fa fv fattrs fincs ford fg =>
        cases fincs with
        | none => exact hgiI
        | some fi =>
          cases hI : item.includes with
          | none => exact hgfI
          | some ii =>
            show goodList sch (mergeIncludes ii fi) = true
            rw [hI] at hgiI
            have hgiI2 : goodList sch ii = true := hgiI
            have hgfI2 : goodList sch fi = true := hgfI
            have haux : ∀ (fi2 : List Item), (∀ e ∈ fi2, goodEntry sch e = true) →
                (∀ e ∈ fi2, sizeOf e ≤ n) →
                ∀ ii2, goodList sch ii2 = true →
                  goodList sch (mergeIncludes ii2 fi2) = true := by
              intro fi2
              induction fi2 with
              | nil => intro _ _ ii2 h; exact h
              | cons frInc fis ihf =>
                intro hg hsz ii2 hgii
                rw [mergeIncludes_cons]
                refine ihf (fun e he => hg e (by simp [he]))
                  (fun e he => hsz e (by simp [he])) _ ?_
                refine good_mergeIncStep sch frInc (hg frInc (by simp)) ?_ ii2 hgii
                intro mN it2 h1 h2
                exact ih frInc (hsz frInc (by simp)) mN it2 h1 h2
            refine haux fi ?_ ?_ ii hgiI2
            · intro e he
              exact (goodList_iff sch fi).mp hgfI2 e he
            · intro e he
              have hlt := sizeOf_mem_includes he ff fm fa fv fattrs ford fg
              omega

/-- One step of the include merge of the spec-modelled query-time merger. -/
def sharedMergeIncStep (incs : List Item) (fr : Item) : List Item :=
  match incs.findIdx? (fun t => sameJoin t fr) with
  | some i =>
    match incs.get? i with
    | some t => incs.set i (sharedMergeClauses t fr)
    | none => incs ++ [fr]
  | none => incs ++ [fr]

theorem sharedMergeIncludes_nil (incs : List Item) : sharedMergeIncludes incs [] = incs := rfl

theorem sharedMergeIncludes_cons (incs : List Item) (fr : Item) (rest : List Item) :
    sharedMergeIncludes incs (fr :: rest)
      = sharedMergeIncludes (sharedMergeIncStep incs fr) rest := rfl

theorem sharedMergeIncStep_nil (fr : Item) : sharedMergeIncStep [] fr = [fr] := rfl

theorem sharedMergeIncStep_cons (t : Item) (ts : List Item) (fr : Item) :
    sharedMergeIncStep (t :: ts) fr =
      (if sameJoin t fr then sharedMergeClauses t fr :: ts
       else t :: sharedMergeIncStep ts fr) := by
  unfold sharedMergeIncStep
  rw [List.findIdx?_cons]
  by_cases hs : sameJoin t fr
  · rw [hs]
    simp [hs]
  · simp only [hs, Bool.false_eq_true, if_false]
    rw [show (0 + 1) = (0 : Nat) + 1 from rfl, findIdx_shift]
    cases hidx : ts.findIdx? (fun u => sameJoin u fr) 0 with
    | none => simp [hs]
    | some j =>
      simp only [Option.map_some, hs]
      cases hget : ts[j]? with
      | none => simp [List.get?_eq_getElem?, hget]
      | some u => simp [List.get?_eq_getElem?, hget, List.set_cons_succ]

theorem good_sharedMergeIncStep (sch : Schema)
    (frInc : Item) (hfr : goodEntry sch frInc = true)
    (hmerge : ∀ mName item, goodTree sch mName item = true →
      goodTree sch mName frInc = true →
      goodTree sch mName (sharedMergeClauses item frInc) = true) :
    ∀ ii, goodList sch ii = true → goodList sch (sharedMergeIncStep ii frInc) = true := by
  intro ii
  induction ii with
  | nil =>
    intro _
    rw [sharedMergeIncStep_nil, goodList_iff]
    intro e he
    simp only [List.mem_singleton] at he
    exact he ▸ hfr
  | cons t ts ih =>
    intro hgood
    rw [goodList_iff] at hgood
    rw [sharedMergeIncStep_cons]
    by_cases hs : sameJoin t frInc
    · rw [if_pos hs, goodList_iff]
      intro e he
      rcases List.mem_cons.mp he with rfl | he2
      · have ht : goodEntry sch t = true := hgood t (by simp)
        have hmr := (sharedMergeClauses_skeleton t frInc).2.1
        unfold goodEntry at ht ⊢
        rw [hmr]
        cases hmc : t.modelRef with
        | none => rfl
        | some r =>
          cases r with
          | byName s => rfl
          | byRef nm =>
            rw [hmc] at ht
            have hfr2 : goodTree sch nm frInc = true := by
              have := modelRef_eq_of_sameJoin hs
              unfold goodEntry at hfr
              rw [← this, hmc] at hfr
              exact hfr
            exact hmerge nm t ht hfr2
      · exact hgood e (by simp [he2])
    · rw [if_neg hs, goodList_iff]
      intro e he
      rcases List.mem_cons.mp he with rfl | he2
      · exact hgood e (by simp)
      · have hts : goodList sch ts = true := by
          rw [goodList_iff]; intro u hu; exact hgood u (by simp [hu])
        have := ih hts
        rw [goodList_iff] at this
        exact this e he2

/-- The spec-modelled query-time merger preserves goodness of the tree. -/
theorem good_sharedMergeClauses (sch : Schema) :
    ∀ (n : Nat) (fr : Item), sizeOf fr ≤ n →
      ∀ (mName : String) (item : Item), goodTree sch mName item = true →
        goodTree sch mName fr = true →
        goodTree sch mName (sharedMergeClauses item fr) = true := by
  intro n
  induction n with
  | zero =>
    intro fr hle
    have := one_le_sizeOf_item fr
    omega
  | succ n ih =>
    intro fr hle mName item hgi hgf
    rw [goodTree_eq] at hgi hgf ⊢
    rw [Bool.and_eq_true] at hgi hgf
    obtain ⟨hgiA, hgiI⟩ := hgi
    obtain ⟨hgfA, hgfI⟩ := hgf
    rw [Bool.and_eq_true]
    refine ⟨?_, ?_⟩
    · rw [sharedMergeClauses_attributes]
      cases hA : item.attributes with
      | none => rfl
      | some a =>
        cases hB : fr.attributes with
        | none => rfl
        | some b =>
          simp [nodup_lodashUnion]
    · rw [sharedMergeClauses_includes]
      cases fr with
      | mk ff fm fa fv fattrs fincs ford fg =>
        cases fincs with
        | none => exact hgiI
        | some fi =>
          cases hI : item.includes with
          | none => exact hgfI
          | some ii =>
            show goodList sch (sharedMergeIncludes ii fi) = true
            rw [hI] at hgiI
            have hgiI2 : goodList sch ii = true := hgiI
            have hgfI2 : goodList sch fi = true := hgfI
            have haux : ∀ (fi2 : List Item), (∀ e ∈ fi2, goodEntry sch e = true) →
                (∀ e ∈ fi2, sizeOf e ≤ n) →
                ∀ ii2, goodList sch ii2 = true →
                  goodList sch (sharedMergeIncludes ii2 fi2) = true := by
              intro fi2
              induction fi2 with
              | nil => intro _ _ ii2 h; exact h
              | cons frInc fis ihf =>
                intro hg hsz ii2 hgii
                rw [sharedMergeIncludes_cons]
                refine ihf (fun e he => hg e (by simp [he]))
                  (fun e he => hsz e (by simp [he])) _ ?_
                refine good_sharedMergeIncStep sch frInc (hg frInc (by simp)) ?_ ii2 hgii
                intro mN it2 h1 h2
                exact ih frInc (hsz frInc (by simp)) mN it2 h1 h2
            refine haux fi ?_ ?_ ii hgiI2
            · intro e he
              exact (goodList_iff sch fi).mp hgfI2 e he
            · intro e he
              have hlt := sizeOf_mem_includes he ff fm fa fv fattrs ford fg
              omega

/-- A clean tree is good (its attribute lists are already free of Derived
references). -/
theorem clean_imp_good (sch : Schema) :
    ∀ (n : Nat) (item : Item), sizeOf item ≤ n →
      ∀ mName, cleanTree sch mName item = true → goodTree sch mName item = true := by
  intro n
  induction n with
  | zero =>
    intro item hle
    have := one_le_sizeOf_item item
    omega
  | succ n ih =>
    intro item hle mName hc
    rw [cleanTree_eq] at hc
    rw [goodTree_eq]
    rw [Bool.and_eq_true] at hc
    obtain ⟨hcA, hcI⟩ := hc
    rw [Bool.and_eq_true]
    refine ⟨?_, ?_⟩
    · cases hA : item.attributes with
      | none => rfl
      | some l =>
        rw [hA] at hcA
        simp only [Bool.or_eq_true]
        exact Or.inr hcA
    · cases item with
      | mk f m a v attrs incs ord vg =>
        cases incs with
        | none => rfl
        | some l =>
          have hcI2 : cleanList sch l = true := hcI
          show goodList sch l = true
          rw [goodList_iff]
          intro e he
          have hce := (cleanList_iff sch l).mp hcI2 e he
          unfold cleanEntry at hce
          unfold goodEntry
          cases hmc : e.modelRef with
          | none => rfl
          | some r =>
            cases r with
            | byName s => rfl
            | byRef nm =>
              rw [hmc] at hce
              refine ih e ?_ nm hce
              have hlt := sizeOf_mem_includes he f m a v attrs ord vg
              omega

/-- The model reference is untouched by the attribute updater. -/
@[simp] theorem Item.modelRef_withAttributes (i : Item) (x : Option (List String)) :
    (i.withAttributes x).modelRef = i.modelRef := by cases i; rfl

@[simp] theorem Item.modelRef_withIncludes (i : Item) (x : Option (List Item)) :
    (i.withIncludes x).modelRef = i.modelRef := by cases i; rfl

@[simp] theorem Item.modelRef_withOrder (i : Item) (x : Option (List OrderEntry)) :
    (i.withOrder x).modelRef = i.modelRef := by cases i; rfl

@[simp] theorem Item.attributes_pushVirtualGet (i : Item) (s : String) :
    (i.pushVirtualGet s).attributes = i.attributes := by cases i; rfl

@[simp] theorem Item.includes_pushVirtualGet (i : Item) (s : String) :
    (i.pushVirtualGet s).includes = i.includes := by cases i; rfl

@[simp] theorem Item.modelRef_pushVirtualGet (i : Item) (s : String) :
    (i.pushVirtualGet s).modelRef = i.modelRef := by cases i; rfl

@[simp] theorem Item.order_pushVirtualGet (i : Item) (s : String) :
    (i.pushVirtualGet s).order = i.order := by cases i; rfl

/-- Taking strictly below the erased index sees the original list. -/
theorem take_eraseIdx {α : Type} (a : List α) (i : Nat) (h : i < a.length) :
    (a.eraseIdx i).take i = a.take i := by
  induction a generalizing i with
  | nil => simp at h
  | cons x xs ih =>
    cases i with
    | zero => simp
    | succ j =>
      simp only [List.eraseIdx_cons_succ, List.take_succ_cons]
      rw [ih j (by simpa using h)]

/-- Every Derived field stored in the registry carries a closed
(Derived-free) requirement tree: the state the Closure Engine is meant to
establish, under which the query-time hook may merge stored trees blindly. -/
def schemaClosed (sch : Schema) : Bool :=
  sch.all (fun m => m.attributes.all (fun p => !p.2.virtual || cleanTree sch m.name p.2))

theorem lookupModel_mem {sch : Schema} {n : String} {m : ModelDef}
    (h : lookupModel sch n = some m) : m ∈ sch ∧ m.name = n := by
  unfold lookupModel at h
  refine ⟨List.mem_of_find?_eq_some h, ?_⟩
  have := List.find?_some h
  simpa using this

theorem lookupAttr_mem {m : ModelDef} {fn : String} {f : Item}
    (h : lookupAttr m fn = some f) : ∃ p ∈ m.attributes, p.2 = f := by
  unfold lookupAttr at h
  cases hf : m.attributes.find? (fun p => p.1 == fn) with
  | none => rw [hf] at h; exact absurd h (by simp)
  | some p =>
    rw [hf] at h
    have h2 : some p.2 = some f := h
    cases h2
    exact ⟨p, List.mem_of_find?_eq_some hf, rfl⟩

/-- Extraction from a closed schema: a virtual field stored on a member
model has a Derived-free tree. -/
theorem schemaClosed_pair {sch : Schema} (hs : schemaClosed sch = true)
    {m : ModelDef} (hm : m ∈ sch) {p : String × Item} (hp : p ∈ m.attributes)
    (hv : p.2.virtual = true) : cleanTree sch m.name p.2 = true := by
  unfold schemaClosed at hs
  rw [List.all_eq_true] at hs
  have h1 := hs m hm
  simp only [List.all_eq_true] at h1
  have h2 := h1 p hp
  rw [hv] at h2
  simpa using h2

theorem schemaClosed_lookup {sch : Schema} (hs : schemaClosed sch = true)
    {m : ModelDef} (hm : m ∈ sch) {fn : String} {f : Item}
    (hf : lookupAttr m fn = some f) (hv : f.virtual = true) :
    cleanTree sch m.name f = true := by
  obtain ⟨p, hp, hpf⟩ := lookupAttr_mem hf
  have := schemaClosed_pair hs hm hp (by rw [hpf]; exact hv)
  rw [hpf] at this
  exact this

/-- The hook consults the model object directly; through the registry the
same lookup is what virtualAt performs. -/
theorem virtualAt_eq {sch : Schema} {model : ModelDef}
    (hm : lookupModel sch model.name = some model) (a : String) :
    virtualAt sch model.name a =
      (match lookupAttr model a with | none => false | some f => f.virtual) := by
  unfold virtualAt
  rw [hm]

theorem cleanTree_attrs {sch : Schema} {mName : String} {item : Item}
    (h : cleanTree sch mName item = true) :
    ∀ l, item.attributes = some l → ∀ a ∈ l, virtualAt sch mName a = false := by
  rw [cleanTree_eq, Bool.and_eq_true] at h
  obtain ⟨h1, _⟩ := h
  intro l hl a ha
  rw [hl] at h1
  have h2 : l.all (fun a => !virtualAt sch mName a) = true := h1
  rw [List.all_eq_true] at h2
  have := h2 a ha
  simpa using this

theorem cleanTree_incs {sch : Schema} {mName : String} {item : Item}
    (h : cleanTree sch mName item = true) :
    ∀ l, item.includes = some l → cleanList sch l = true := by
  rw [cleanTree_eq, Bool.and_eq_true] at h
  obtain ⟨_, h2⟩ := h
  intro l hl
  rw [hl] at h2
  exact h2

theorem cleanTree_intro {sch : Schema} {mName : String} {item : Item}
    (h1 : ∀ l, item.attributes = some l → ∀ a ∈ l, virtualAt sch mName a = false)
    (h2 : ∀ l, item.includes = some l → cleanList sch l = true) :
    cleanTree sch mName item = true := by
  rw [cleanTree_eq, Bool.and_eq_true]
  constructor
  · cases hA : item.attributes with
    | none => rfl
    | some l =>
      show l.all (fun a => !virtualAt sch mName a) = true
      rw [List.all_eq_true]
      intro a ha
      simpa using h1 l hA a ha
  · cases hI : item.includes with
    | none => rfl
    | some l => exact h2 l hI

theorem cleanEntry_imp_goodEntry {sch : Schema} {e : Item}
    (h : cleanEntry sch e = true) : goodEntry sch e = true := by
  unfold cleanEntry at h
  unfold goodEntry
  cases hm : e.modelRef with
  | none => rfl
  | some r =>
    cases r with
    | byName s => rfl
    | byRef n =>
      rw [hm] at h
      exact clean_imp_good sch (sizeOf e) e le_rfl n h

theorem cleanList_imp_goodList {sch : Schema} {l : List Item}
    (h : cleanList sch l = true) : goodList sch l = true := by
  rw [goodList_iff]
  intro e he
  exact cleanEntry_imp_goodEntry ((cleanList_iff sch l).mp h e he)

/-- Merging a list of clean entries into a good include list keeps it good. -/
theorem good_sharedMergeIncludes (sch : Schema) :
    ∀ (fi : List Item), (∀ e ∈ fi, goodEntry sch e = true) →
      ∀ ii, goodList sch ii = true → goodList sch (sharedMergeIncludes ii fi) = true := by
  intro fi
  induction fi with
  | nil => intro _ ii h; exact h
  | cons fr rest ih =>
    intro hg ii hii
    rw [sharedMergeIncludes_cons]
    refine ih (fun e he => hg e (by simp [he])) _ ?_
    refine good_sharedMergeIncStep sch fr (hg fr (by simp)) ?_ ii hii
    intro mN it h1 h2
    exact good_sharedMergeClauses sch (sizeOf fr) fr le_rfl mN it h1 h2

/-- The include component of one query-time merge of a clean stored field
into good options stays good. -/
theorem good_includes_sharedMerge (sch : Schema) (options field : Item)
    (hof : ∀ l, options.includes = some l → goodList sch l = true)
    (hf : ∀ fi, field.includes = some fi → cleanList sch fi = true) :
    ∀ l, (sharedMergeClauses options field).includes = some l →
      goodList sch l = true := by
  intro l hl
  rw [sharedMergeClauses_includes] at hl
  cases hF : field.includes with
  | none => rw [hF] at hl; exact hof l hl
  | some fi =>
    rw [hF] at hl
    have hfi : cleanList sch fi = true := hf fi hF
    have hgfi : ∀ e ∈ fi, goodEntry sch e = true := fun e he =>
      cleanEntry_imp_goodEntry ((cleanList_iff sch fi).mp hfi e he)
    cases hI : options.includes with
    | none =>
      rw [hI] at hl
      have hl2 : some fi = some l := hl
      cases hl2
      exact cleanList_imp_goodList hfi
    | some ii =>
      rw [hI] at hl
      have hl2 : some (sharedMergeIncludes ii fi) = some l := hl
      cases hl2
      exact good_sharedMergeIncludes sch fi hgfi ii (hof ii hI)

/-- One unfolding step of the hook's attribute scan. -/
theorem rvfLoop_succ (sch : Schema) (model : ModelDef) (fuel i : Nat) (options : Item) :
    rvfLoop sch model (fuel+1) i options =
      match options.attributes with
      | none => .error .typeErr
      | some attrs =>
        if h : i < attrs.length then
          match lookupAttr model (attrs.get ⟨i, h⟩) with
          | none => .error (.hookFieldMissing model.name (attrs.get ⟨i, h⟩))
          | some field =>
            if field.virtual then
              match (addVirtualFieldOptions options field (attrs.get ⟨i, h⟩)).attributes with
              | none => .error .typeErr
              | some attrs2 =>
                rvfLoop sch model fuel i
                  ((addVirtualFieldOptions options field (attrs.get ⟨i, h⟩)).withAttributes
                    (some (attrs2.eraseIdx i)))
            else rvfLoop sch model fuel (i + 1) options
        else .ok options := rfl

/-- The hook's splice-scan over one attribute list: on a duplicate-free (or
already Derived-free) list with a Derived-free scanned prefix, a successful
scan leaves only non-Derived attributes, keeps the include list good, and
preserves the clause's model reference. -/
theorem rvfLoop_clean (sch : Schema) (model : ModelDef)
    (hm : lookupModel sch model.name = some model)
    (hcl : ∀ fn f, lookupAttr model fn = some f → f.virtual = true →
      cleanTree sch model.name f = true) :
    ∀ (fuel i : Nat) (options res : Item),
      rvfLoop sch model fuel i options = .ok res →
      (∀ attrs, options.attributes = some attrs →
        (attrs.Nodup ∨ ∀ a ∈ attrs, virtualAt sch model.name a = false)
        ∧ ∀ a ∈ attrs.take i, virtualAt sch model.name a = false) →
      (∀ l, options.includes = some l → goodList sch l = true) →
      (∀ rl, res.attributes = some rl → ∀ a ∈ rl, virtualAt sch model.name a = false)
      ∧ (∀ l, res.includes = some l → goodList sch l = true)
      ∧ res.modelRef = options.modelRef := by
  intro fuel
  induction fuel with
  | zero =>
    intro i options res hok
    exact absurd hok (by simp [rvfLoop])
  | succ fuel ih =>
    intro i options res hok hA hI
    rw [rvfLoop_succ] at hok
    split at hok
    · exact absurd hok (by simp)
    · rename_i attrs hattr
      split at hok
      · rename_i hlt
        split at hok
        · exact absurd hok (by simp)
        · rename_i field hfield
          split at hok
          · -- virtual hit
            rename_i hvirt
            obtain ⟨hnd_or, hpre⟩ := hA attrs hattr
            have hvA : virtualAt sch model.name (attrs.get ⟨i, hlt⟩) = true := by
              rw [virtualAt_eq hm, hfield]
              exact hvirt
            have hmem : attrs.get ⟨i, hlt⟩ ∈ attrs := List.get_mem attrs i hlt
            have hnd : attrs.Nodup := by
              cases hnd_or with
              | inl h => exact h
              | inr h =>
                have := h _ hmem
                rw [this] at hvA
                exact Bool.noConfusion hvA
            have hfc : cleanTree sch model.name field = true := hcl _ field hfield hvirt
            split at hok
            · exact absurd hok (by simp)
            · rename_i attrs2 hattrs2
              rw [show (addVirtualFieldOptions options field (attrs.get ⟨i, hlt⟩)).attributes
                  = (sharedMergeClauses options field).attributes by
                    simp [addVirtualFieldOptions]] at hattrs2
              rw [sharedMergeClauses_attributes, hattr] at hattrs2
              cases hfa : field.attributes with
              | none =>
                rw [hfa] at hattrs2
                have h2 : (none : Option (List String)) = some attrs2 := hattrs2
                exact Option.noConfusion h2
              | some b =>
                rw [hfa] at hattrs2
                have h2 : some (lodashUnion attrs b) = some attrs2 := hattrs2
                cases h2
                have h1 : ∀ na,
                    (((addVirtualFieldOptions options field (attrs.get ⟨i, hlt⟩)).withAttributes
                      (some ((lodashUnion attrs b).eraseIdx i))).attributes = some na) →
                    (na.Nodup ∨ ∀ a ∈ na, virtualAt sch model.name a = false)
                    ∧ ∀ a ∈ na.take i, virtualAt sch model.name a = false := by
                  intro na hna
                  rw [Item.attributes_withAttributes] at hna
                  have hna2 : (lodashUnion attrs b).eraseIdx i = na := by
                    exact Option.some_inj.mp hna
                  cases hna2
                  constructor
                  · exact Or.inl (List.Nodup.eraseIdx i (nodup_lodashUnion attrs b))
                  · rw [lodashUnion_eq attrs b hnd,
                      List.eraseIdx_append_of_lt_length hlt,
                      List.take_append_of_le_length
                        (by rw [List.length_eraseIdx_of_lt hlt]; omega),
                      take_eraseIdx attrs i hlt]
                    exact hpre
                have h2i : ∀ l,
                    (((addVirtualFieldOptions options field (attrs.get ⟨i, hlt⟩)).withAttributes
                      (some ((lodashUnion attrs b).eraseIdx i))).includes = some l) →
                    goodList sch l = true := by
                  intro l hl
                  rw [Item.includes_withAttributes] at hl
                  rw [show (addVirtualFieldOptions options field (attrs.get ⟨i, hlt⟩)).includes
                      = (sharedMergeClauses options field).includes by
                        simp [addVirtualFieldOptions]] at hl
                  exact good_includes_sharedMerge sch options field hI
                    (fun fi hfi => cleanTree_incs hfc fi hfi) l hl
                obtain ⟨c1, c2, c3⟩ := ih i _ res hok h1 h2i
                refine ⟨c1, c2, ?_⟩
                rw [c3, Item.modelRef_withAttributes]
                rw [show (addVirtualFieldOptions options field (attrs.get ⟨i, hlt⟩)).modelRef
                    = (sharedMergeClauses options field).modelRef by
                      simp [addVirtualFieldOptions]]
                exact (sharedMergeClauses_skeleton options field).2.1
          · -- non-virtual entry: advance the cursor
            rename_i hvirt
            rw [Bool.not_eq_true] at hvirt
            obtain ⟨hnd_or, hpre⟩ := hA attrs hattr
            have h1 : ∀ attrs3, options.attributes = some attrs3 →
                (attrs3.Nodup ∨ ∀ a ∈ attrs3, virtualAt sch model.name a = false)
                ∧ ∀ a ∈ attrs3.take (i+1), virtualAt sch model.name a = false := by
              intro attrs3 hattr3
              rw [hattr] at hattr3
              have h2 : attrs = attrs3 := Option.some_inj.mp hattr3
              cases h2
              refine ⟨hnd_or, ?_⟩
              intro a ha
              rw [← List.take_concat_get attrs i hlt, List.concat_eq_append] at ha
              rcases List.mem_append.mp ha with h3 | h3
              · exact hpre a h3
              · have h4 : a = attrs[i] := by simpa using h3
                have hfield2 : lookupAttr model attrs[i] = some field := hfield
                rw [h4, virtualAt_eq hm, hfield2]
                exact hvirt
            exact ih (i+1) options res hok h1 hI
      · -- cursor beyond the list: the scan returns the options unchanged
        rename_i hge
        cases hok
        refine ⟨?_, hI, rfl⟩
        intro rl hrl
        obtain ⟨hnd_or, hpre⟩ := hA rl hrl
        rw [hattr] at hrl
        have h2 : attrs = rl := Option.some_inj.mp hrl
        cases h2
        rw [List.take_of_length_le (Nat.le_of_not_lt hge)] at hpre
        exact hpre

theorem goodTree_attrs {sch : Schema} {mName : String} {item : Item}
    (h : goodTree sch mName item = true) :
    ∀ l, item.attributes = some l →
      l.Nodup ∨ ∀ a ∈ l, virtualAt sch mName a = false := by
  rw [goodTree_eq, Bool.and_eq_true] at h
  obtain ⟨h1, _⟩ := h
  intro l hl
  rw [hl] at h1
  have h2 : (decide l.Nodup || l.all (fun a => !virtualAt sch mName a)) = true := h1
  rw [Bool.or_eq_true] at h2
  cases h2 with
  | inl h3 => exact Or.inl (of_decide_eq_true h3)
  | inr h3 =>
    right
    rw [List.all_eq_true] at h3
    intro a ha
    simpa using h3 a ha

theorem goodTree_incs {sch : Schema} {mName : String} {item : Item}
    (h : goodTree sch mName item = true) :
    ∀ l, item.includes = some l → goodList sch l = true := by
  rw [goodTree_eq, Bool.and_eq_true] at h
  obtain ⟨_, h2⟩ := h
  intro l hl
  rw [hl] at h2
  exact h2

/-- The no-attributes branch of the hook: pulling in every virtual field of
a model with closed trees keeps the attribute list absent, the includes
good, and the model reference intact. -/
theorem addAllVirtuals_clean (sch : Schema) (mName : String) :
    ∀ (pairs : List (String × Item)) (options : Item),
      (∀ p ∈ pairs, p.2.virtual = true → cleanTree sch mName p.2 = true) →
      options.attributes = none →
      (∀ l, options.includes = some l → goodList sch l = true) →
      (addAllVirtuals options pairs).attributes = none
      ∧ (∀ l, (addAllVirtuals options pairs).includes = some l → goodList sch l = true)
      ∧ (addAllVirtuals options pairs).modelRef = options.modelRef := by
  intro pairs
  induction pairs with
  | nil => intro options hcl hA hI; exact ⟨hA, hI, rfl⟩
  | cons p rest ih =>
    intro options hcl hA hI
    obtain ⟨fn, f⟩ := p
    rw [show addAllVirtuals options ((fn, f) :: rest)
        = addAllVirtuals (if f.virtual then addVirtualFieldOptions options f fn
            else options) rest from rfl]
    by_cases hv : f.virtual = true
    · rw [if_pos hv]
      have hfc : cleanTree sch mName f = true := hcl (fn, f) (by simp) hv
      have hA2 : (addVirtualFieldOptions options f fn).attributes = none := by
        rw [show (addVirtualFieldOptions options f fn).attributes
            = (sharedMergeClauses options f).attributes by simp [addVirtualFieldOptions]]
        rw [sharedMergeClauses_attributes, hA]
      have hI2 : ∀ l, (addVirtualFieldOptions options f fn).includes = some l →
          goodList sch l = true := by
        intro l hl
        rw [show (addVirtualFieldOptions options f fn).includes
            = (sharedMergeClauses options f).includes by simp [addVirtualFieldOptions]] at hl
        exact good_includes_sharedMerge sch options f hI
          (fun fi hfi => cleanTree_incs hfc fi hfi) l hl
      obtain ⟨c1, c2, c3⟩ := ih (addVirtualFieldOptions options f fn)
        (fun q hq hqv => hcl q (by simp [hq]) hqv) hA2 hI2
      refine ⟨c1, c2, ?_⟩
      rw [c3]
      rw [show (addVirtualFieldOptions options f fn).modelRef
          = (sharedMergeClauses options f).modelRef by simp [addVirtualFieldOptions]]
      exact (sharedMergeClauses_skeleton options f).2.1
    · rw [if_neg hv]
      exact ih options (fun q hq hqv => hcl q (by simp [hq]) hqv) hA hI

/-- The bare-model include is rewritten to object notation before the
recursion (include = includes[index] = \x7bmodel: include\x7d). -/
def convInc (inc : Item) : Item :=
  match inc.form with
  | .instF => Item.mk .objF inc.modelRef inc.asName inc.virtual inc.attributes
      inc.includes inc.order inc.virtualGet
  | _ => inc

theorem convInc_modelRef (inc : Item) : (convInc inc).modelRef = inc.modelRef := by
  cases inc with
  | mk f m a v attrs incs ord vg => cases f <;> rfl

theorem goodTree_convInc (sch : Schema) (nm : String) (inc : Item) :
    goodTree sch nm (convInc inc) = goodTree sch nm inc := by
  cases inc with
  | mk f m a v attrs incs ord vg => cases f <;> rfl

/-- One unfolding step of the hook's tree expansion. -/
theorem replaceVirtualFields_succ (sch : Schema) (fuel : Nat) (model : ModelDef)
    (options : Item) :
    replaceVirtualFields sch (fuel+1) model options =
      match options.attributes with
      | some _ => (rvfLoop sch model (fuel + 1) 0 options).bind
          (fun o1 =>
            match o1.includes with
            | none => Except.ok o1
            | some incs => (rvfList sch fuel incs).bind
                (fun incs2 => Except.ok (o1.withIncludes (some incs2))))
      | none =>
          match (addAllVirtuals options model.attributes).includes with
          | none => Except.ok (addAllVirtuals options model.attributes)
          | some incs => (rvfList sch fuel incs).bind
              (fun incs2 => Except.ok
                ((addAllVirtuals options model.attributes).withIncludes (some incs2))) := by
  unfold replaceVirtualFields
  rfl

/-- One unfolding step of the hook's include recursion. -/
theorem rvfList_succ_cons (sch : Schema) (fuel : Nat) (inc : Item) (rest : List Item) :
    rvfList sch (fuel+1) (inc :: rest) =
      match (convInc inc).form, (convInc inc).modelRef with
      | .objF, some (.byRef n) =>
        (match lookupModel sch n with
         | some md => (replaceVirtualFields sch fuel md (convInc inc)).bind
             (fun inc2 => (rvfList sch fuel rest).bind
               (fun rest2 => Except.ok (inc2 :: rest2)))
         | none => Except.error VErr.typeErr)
      | _, _ => Except.error VErr.typeErr := by
  conv_lhs => unfold rvfList
  rfl

/-- Hook expansion of a whole request tree: under a closed schema, a
successful expansion of a good (duplicate-free or Derived-free) tree is
clean, and the include recursion returns only clean resolved entries. -/
theorem rvf_tree_clean (sch : Schema) (hsc : schemaClosed sch = true) :
    ∀ fuel : Nat,
      (∀ (model : ModelDef) (options res : Item),
        lookupModel sch model.name = some model →
        replaceVirtualFields sch fuel model options = .ok res →
        goodTree sch model.name options = true →
        cleanTree sch model.name res = true ∧ res.modelRef = options.modelRef)
      ∧ (∀ (incs res : List Item),
        rvfList sch fuel incs = .ok res →
        (∀ e ∈ incs, goodEntry sch e = true) →
        cleanList sch res = true) := by
  intro fuel
  induction fuel with
  | zero =>
    constructor
    · intro model options res _ hok _
      exact absurd hok (by simp [replaceVirtualFields])
    · intro incs res hok _
      exact absurd hok (by simp [rvfList])
  | succ fuel ih =>
    obtain ⟨ihT, ihL⟩ := ih
    constructor
    · intro model options res hm hok hg
      have hmem : model ∈ sch := (lookupModel_mem hm).1
      have hclm : ∀ fn f, lookupAttr model fn = some f → f.virtual = true →
          cleanTree sch model.name f = true :=
        fun fn f hf hv => schemaClosed_lookup hsc hmem hf hv
      rw [replaceVirtualFields_succ] at hok
      cases hattr : options.attributes with
      | some attrs0 =>
        rw [hattr] at hok
        cases h1 : rvfLoop sch model (fuel + 1) 0 options with
        | error e =>
          rw [h1] at hok
          have hok2 : Except.error e = Except.ok res := hok
          exact Except.noConfusion hok2
        | ok o1 =>
          rw [h1] at hok
          have hok2 : (match o1.includes with
            | none => Except.ok o1
            | some incs => (rvfList sch fuel incs).bind
                (fun incs2 => Except.ok (o1.withIncludes (some incs2)))) = .ok res := hok
          obtain ⟨c1, c2, c3⟩ := rvfLoop_clean sch model hm hclm (fuel+1) 0 options o1 h1
            (fun attrs2 hattrs2 => ⟨goodTree_attrs hg attrs2 hattrs2, by simp⟩)
            (goodTree_incs hg)
          cases hInc : o1.includes with
          | none =>
            rw [hInc] at hok2
            have hok3 : Except.ok o1 = Except.ok res := hok2
            cases hok3
            refine ⟨cleanTree_intro c1 ?_, c3⟩
            intro l hl
            rw [hInc] at hl
            exact absurd hl (by simp)
          | some incs =>
            rw [hInc] at hok2
            have hok2b : (rvfList sch fuel incs).bind
                (fun incs2 => Except.ok (o1.withIncludes (some incs2))) = .ok res := hok2
            cases h2 : rvfList sch fuel incs with
            | error e =>
              rw [h2] at hok2b
              have hok3 : Except.error e = Except.ok res := hok2b
              exact Except.noConfusion hok3
            | ok incs2 =>
              rw [h2] at hok2b
              have hok3 : Except.ok (o1.withIncludes (some incs2)) = Except.ok res := hok2b
              cases hok3
              have hcl2 : cleanList sch incs2 = true :=
                ihL incs incs2 h2
                  (fun e he => (goodList_iff sch incs).mp (c2 incs hInc) e he)
              constructor
              · apply cleanTree_intro
                · intro l hl
                  rw [Item.attributes_withIncludes] at hl
                  exact c1 l hl
                · intro l hl
                  rw [Item.includes_withIncludes] at hl
                  exact (Option.some_inj.mp hl) ▸ hcl2
              · rw [Item.modelRef_withIncludes]
                exact c3
      | none =>
        rw [hattr] at hok
        have hclp : ∀ p ∈ model.attributes, p.2.virtual = true →
            cleanTree sch model.name p.2 = true :=
          fun p hp hv => schemaClosed_pair hsc hmem hp hv
        obtain ⟨a1, a2, a3⟩ := addAllVirtuals_clean sch model.name model.attributes options
          hclp hattr (goodTree_incs hg)
        have hokb : (match (addAllVirtuals options model.attributes).includes with
            | none => Except.ok (addAllVirtuals options model.attributes)
            | some incs => (rvfList sch fuel incs).bind
                (fun incs2 => Except.ok
                  ((addAllVirtuals options model.attributes).withIncludes (some incs2))))
            = .ok res := hok
        cases hInc : (addAllVirtuals options model.attributes).includes with
        | none =>
          rw [hInc] at hokb
          have hok3 : Except.ok (addAllVirtuals options model.attributes)
              = Except.ok res := hokb
          cases hok3
          refine ⟨cleanTree_intro ?_ ?_, a3⟩
          · intro l hl
            rw [a1] at hl
            exact absurd hl (by simp)
          · intro l hl
            rw [hInc] at hl
            exact absurd hl (by simp)
        | some incs =>
          rw [hInc] at hokb
          have hokc : (rvfList sch fuel incs).bind
              (fun incs2 => Except.ok
                ((addAllVirtuals options model.attributes).withIncludes (some incs2)))
              = .ok res := hokb
          cases h2 : rvfList sch fuel incs with
          | error e =>
            rw [h2] at hokc
            have hok3 : Except.error e = Except.ok res := hokc
            exact Except.noConfusion hok3
          | ok incs2 =>
            rw [h2] at hokc
            have hok3 : Except.ok
                ((addAllVirtuals options model.attributes).withIncludes (some incs2))
                = Except.ok res := hokc
            cases hok3
            have hcl2 : cleanList sch incs2 = true :=
              ihL incs incs2 h2
                (fun e he => (goodList_iff sch incs).mp (a2 incs hInc) e he)
            constructor
            · apply cleanTree_intro
              · intro l hl
                rw [Item.attributes_withIncludes, a1] at hl
                exact absurd hl (by simp)
              · intro l hl
                rw [Item.includes_withIncludes] at hl
                exact (Option.some_inj.mp hl) ▸ hcl2
            · rw [Item.modelRef_withIncludes]
              exact a3
    · intro incs res hok hg
      cases incs with
      | nil =>
        have hok2 : Except.ok ([] : List Item) = Except.ok res := hok
        cases hok2
        rfl
      | cons inc rest =>
        rw [rvfList_succ_cons] at hok
        cases hform : (convInc inc).form with
        | strF =>
          rw [hform] at hok
          have hok2 : Except.error VErr.typeErr = Except.ok res := hok
          exact Except.noConfusion hok2
        | instF =>
          rw [hform] at hok
          have hok2 : Except.error VErr.typeErr = Except.ok res := hok
          exact Except.noConfusion hok2
        | objF =>
          rw [hform] at hok
          cases hmr : (convInc inc).modelRef with
          | none =>
            rw [hmr] at hok
            have hok2 : Except.error VErr.typeErr = Except.ok res := hok
            exact Except.noConfusion hok2
          | some r =>
            rw [hmr] at hok
            cases r with
            | byName s =>
              have hok2 : Except.error VErr.typeErr = Except.ok res := hok
              exact Except.noConfusion hok2
            | byRef n =>
              have hokb : (match lookupModel sch n with
                  | some md => (replaceVirtualFields sch fuel md (convInc inc)).bind
                      (fun inc2 => (rvfList sch fuel rest).bind
                        (fun rest2 => Except.ok (inc2 :: rest2)))
                  | none => Except.error VErr.typeErr) = .ok res := hok
              cases hlm : lookupModel sch n with
              | none =>
                rw [hlm] at hokb
                have hok2 : Except.error VErr.typeErr = Except.ok res := hokb
                exact Except.noConfusion hok2
              | some md =>
                rw [hlm] at hokb
                have hok2 : (replaceVirtualFields sch fuel md (convInc inc)).bind
                    (fun inc2 => (rvfList sch fuel rest).bind
                      (fun rest2 => Except.ok (inc2 :: rest2))) = .ok res := hokb
                cases h2 : replaceVirtualFields sch fuel md (convInc inc) with
                | error e =>
                  rw [h2] at hok2
                  have hok3 : Except.error e = Except.ok res := hok2
                  exact Except.noConfusion hok3
                | ok inc2 =>
                  rw [h2] at hok2
                  have hok3 : (rvfList sch fuel rest).bind
                      (fun rest2 => Except.ok (inc2 :: rest2)) = .ok res := hok2
                  cases h3 : rvfList sch fuel rest with
                  | error e =>
                    rw [h3] at hok3
                    have hok4 : Except.error e = Except.ok res := hok3
                    exact Except.noConfusion hok4
                  | ok rest2 =>
                    rw [h3] at hok3
                    have hok4 : Except.ok (inc2 :: rest2) = Except.ok res := hok3
                    cases hok4
                    have hmdn : md.name = n := (lookupModel_mem hlm).2
                    have hm2 : lookupModel sch md.name = some md := by
                      rw [hmdn]; exact hlm
                    have hge : goodEntry sch inc = true := hg inc (by simp)
                    have hincr : inc.modelRef = some (.byRef n) := by
                      rw [← convInc_modelRef]; exact hmr
                    have hgt : goodTree sch n inc = true := by
                      unfold goodEntry at hge
                      rw [hincr] at hge
                      exact hge
                    have hgt2 : goodTree sch md.name (convInc inc) = true := by
                      rw [goodTree_convInc, hmdn]
                      exact hgt
                    obtain ⟨d1, d2⟩ := ihT md (convInc inc) inc2 hm2 h2 hgt2
                    have hrest : cleanList sch rest2 = true :=
                      ihL rest rest2 h3 (fun e he => hg e (by simp [he]))
                    have hmr2 : inc2.modelRef = some (.byRef n) := by
                      rw [d2]; exact hmr
                    rw [show cleanList sch (inc2 :: rest2) =
                        ((match inc2.modelRef with
                          | some (.byRef n2) => cleanTree sch n2 inc2
                          | _ => false) && cleanList sch rest2) from rfl]
                    rw [hmr2, Bool.and_eq_true]
                    constructor
                    · show cleanTree sch n inc2 = true
                      rw [← hmdn]
                      exact d1
                    · exact hrest

/-- Claim C2 amended: expansion never leaks Derived references once the
request's attribute lists are duplicate-free (or already Derived-free).
For a closed schema (every stored Derived tree free of Derived names) and a
good request tree, a successful expandRequest returns a request with no
Derived-field name in any attribute list of its tree; without the
duplicate-free condition the splice-scan cursor can skip a Derived entry
(c2_counterexample). -/
theorem c2_amended (sch : Schema) (model : ModelDef) (options res : Item) (fuel : Nat)
    (hsc : schemaClosed sch = true)
    (hm : lookupModel sch model.name = some model)
    (hg : goodTree sch model.name options = true)
    (hok : expandRequest sch fuel model options = .ok res) :
    cleanTree sch model.name res = true := by
  have hok1 : (replaceVirtualFields sch fuel model options).bind
      (fun o1 => replaceVirtualOrders sch model o1) = .ok res := hok
  cases h1 : replaceVirtualFields sch fuel model options with
  | error e =>
    rw [h1] at hok1
    exact Except.noConfusion (show Except.error e = Except.ok res from hok1)
  | ok o1 =>
    rw [h1] at hok1
    have hok2 : replaceVirtualOrders sch model o1 = .ok res := hok1
    obtain ⟨d1, _⟩ := (rvf_tree_clean sch hsc fuel).1 model options o1 hm h1 hg
    unfold replaceVirtualOrders at hok2
    cases hOrd : o1.order with
    | none =>
      rw [hOrd] at hok2
      have h5 : Except.ok o1 = Except.ok res := hok2
      cases h5
      exact d1
    | some orders =>
      rw [hOrd] at hok2
      have hok3 : (hookNormalizeList orders).bind
          (fun ol1 => (mergeOrders sch model ol1).bind
            (fun o2 => Except.ok (o1.withOrder (some o2)))) = .ok res := hok2
      cases h3 : hookNormalizeList orders with
      | error e =>
        rw [h3] at hok3
        exact Except.noConfusion (show Except.error e = Except.ok res from hok3)
      | ok ol1 =>
        rw [h3] at hok3
        have hok4 : (mergeOrders sch model ol1).bind
            (fun o2 => Except.ok (o1.withOrder (some o2))) = .ok res := hok3
        cases h4 : mergeOrders sch model ol1 with
        | error e =>
          rw [h4] at hok4
          exact Except.noConfusion (show Except.error e = Except.ok res from hok4)
        | ok o2 =>
          rw [h4] at hok4
          have hok5 : Except.ok (o1.withOrder (some o2)) = Except.ok res := hok4
          cases hok5
          apply cleanTree_intro
          · intro l hl
            rw [Item.attributes_withOrder] at hl
            exact cleanTree_attrs d1 l hl
          · intro l hl
            rw [Item.includes_withOrder] at hl
            exact cleanTree_incs d1 l hl

theorem c2_amended_witness :
    schemaClosed schEnd = true
    ∧ lookupModel schEnd taskM.name = some taskM
    ∧ goodTree schEnd taskM.name reqEnd = true
    ∧ expandRequest schEnd 10 taskM reqEnd
        = .ok (.mk .objF none none false (some ["name"])
            (some [incObj "Person" none (some ["name"]) none]) none ["Label"])
    ∧ cleanTree schEnd taskM.name
        (.mk .objF none none false (some ["name"])
          (some [incObj "Person" none (some ["name"]) none]) none ["Label"]) = true := by
  refine ⟨rfl, rfl, rfl, rfl, ?_⟩
  exact c2_amended schEnd taskM reqEnd _ 10 rfl rfl rfl rfl

/-- The edge relation of a dependency graph given by an edge list. -/
def edgeRel (edges : List Edge) : Node → Node → Prop :=
  fun a b => (a, b) ∈ edges

/-- A cycle: a nonempty edge path from some node back to itself. -/
def IsCycle (edges : List Edge) : Prop :=
  ∃ a, Relation.TransGen (edgeRel edges) a a

theorem isCycle_single {a b : Node} (h : IsCycle [(a, b)]) : a = b := by
  obtain ⟨x, hx⟩ := h
  have hend : ∀ {u v : Node}, Relation.TransGen (edgeRel [(a, b)]) u v → v = b := by
    intro u v huv
    induction huv with
    | single h1 =>
      have h2 := List.mem_singleton.mp h1
      simp only [Prod.mk.injEq] at h2
      exact h2.2
    | tail _ h2 ih =>
      have h3 := List.mem_singleton.mp h2
      simp only [Prod.mk.injEq] at h3
      exact h3.2
  have hstart : ∀ {u v : Node}, Relation.TransGen (edgeRel [(a, b)]) u v → u = a := by
    intro u v huv
    induction huv with
    | single h1 =>
      have h2 := List.mem_singleton.mp h1
      simp only [Prod.mk.injEq] at h2
      exact h2.1
    | tail _ _ ih => exact ih
  have h1 : x = a := hstart hx
  have h2 : x = b := hend hx
  rw [← h1]
  exact h2

theorem not_isCycle_single {a b : Node} (hne : a ≠ b) : ¬ IsCycle [(a, b)] :=
  fun h => hne (isCycle_single h)

theorem length_filter_lt {α : Type} (p : α → Bool) (l : List α) (x : α)
    (hx : x ∈ l) (hpx : p x = false) : (l.filter p).length < l.length := by
  induction l with
  | nil => simp at hx
  | cons a as ih =>
    rcases List.mem_cons.mp hx with rfl | hx2
    · rw [List.filter_cons, if_neg (by simp [hpx])]
      exact Nat.lt_succ_of_le (List.length_filter_le p as)
    · rw [List.filter_cons]
      by_cases hpa : p a = true
      · rw [if_pos hpa]
        simp only [List.length_cons]
        exact Nat.succ_lt_succ (ih hx2)
      · rw [if_neg hpa]
        have := ih hx2
        simp only [List.length_cons]
        omega

/-- If every member of a nonempty finite set has a successor inside the
set, the relation has a cycle: follow successors and apply pigeonhole. -/
theorem cycle_of_total_succ {α : Type} [DecidableEq α] (rel : α → α → Prop)
    (R : List α) (hne : R ≠ [])
    (h : ∀ a ∈ R, ∃ b, b ∈ R ∧ rel a b) :
    ∃ a, Relation.TransGen rel a a := by
  classical
  obtain ⟨a0, ha0⟩ := List.exists_mem_of_ne_nil R hne
  choose f hf1 hf2 using h
  let F : {x // x ∈ R} → {x // x ∈ R} := fun p => ⟨f p.1 p.2, hf1 p.1 p.2⟩
  let g : Nat → {x // x ∈ R} := fun n => F^[n] ⟨a0, ha0⟩
  have hg : ∀ n, rel (g n).1 (g (n+1)).1 := by
    intro n
    have h1 : g (n+1) = F (g n) := Function.iterate_succ_apply' F n _
    rw [h1]
    exact hf2 _ _
  have hchain : ∀ (d i : Nat), Relation.TransGen rel (g i).1 (g (i + d + 1)).1 := by
    intro d
    induction d with
    | zero => intro i; exact Relation.TransGen.single (hg i)
    | succ d ihd =>
      intro i
      exact (ihd i).tail (hg (i + d + 1))
  have hmaps : ∀ i ∈ Finset.range (R.length + 1), (g i).1 ∈ R.toFinset := by
    intro i _
    rw [List.mem_toFinset]
    exact (g i).2
  have hcard : R.toFinset.card < (Finset.range (R.length + 1)).card := by
    rw [Finset.card_range]
    exact Nat.lt_succ_of_le R.toFinset_card_le
  obtain ⟨i, hi, j, hj, hij, heq⟩ :=
    Finset.exists_ne_map_eq_of_card_lt_of_maps_to hcard hmaps
  rcases Nat.lt_or_ge i j with hlt | hge
  · obtain ⟨d, rfl⟩ : ∃ d, j = i + d + 1 := ⟨j - i - 1, by omega⟩
    refine ⟨(g i).1, ?_⟩
    have := hchain d i
    rw [← heq] at this
    exact this
  · have hlt2 : j < i := by omega
    obtain ⟨d, rfl⟩ : ∃ d, i = j + d + 1 := ⟨i - j - 1, by omega⟩
    refine ⟨(g j).1, ?_⟩
    have := hchain d j
    rw [heq] at this
    exact this

theorem mem_succsOf {edges : List Edge} {a b : Node} :
    b ∈ succsOf edges a ↔ (a, b) ∈ edges := by
  unfold succsOf
  simp only [List.mem_map, List.mem_filter]
  constructor
  · rintro ⟨e, ⟨he, hbeq⟩, rfl⟩
    have h1 : e.1 = a := by simpa using hbeq
    have h2 : e = (a, e.2) := by rw [← h1]
    rw [← h2]
    exact he
  · intro hab
    exact ⟨(a, b), ⟨hab, by simp⟩, rfl⟩

/-- With no ready node, every remaining node keeps a dependency inside the
remaining set. -/
theorem kahnReady_empty_total (edges : List Edge) (R : List Node)
    (h : kahnReady edges R = []) :
    ∀ a ∈ R, ∃ b, b ∈ R ∧ edgeRel edges a b := by
  intro a ha
  unfold kahnReady at h
  rw [List.filter_eq_nil_iff] at h
  have h2 := h a ha
  simp only [List.all_eq_true, decide_eq_true_eq, not_forall] at h2
  obtain ⟨b, hb, hbR⟩ := h2
  refine ⟨b, ?_, mem_succsOf.mp hb⟩
  simp only [Decidable.not_not] at hbR
  simpa using hbR

/-- Kahn soundness: an error with enough fuel means a genuine cycle. -/
theorem kahnGo_error_cycle (edges : List Edge) :
    ∀ (fuel : Nat) (acc R : List Node) (n : Node),
      R.length ≤ fuel →
      kahnGo edges fuel acc R = .error n →
      IsCycle edges := by
  intro fuel
  induction fuel with
  | zero =>
    intro acc R n hlen hk
    cases R with
    | nil => exact Except.noConfusion (show Except.ok acc = Except.error n from hk)
    | cons r rest => simp at hlen
  | succ fuel ih =>
    intro acc R n hlen hk
    cases R with
    | nil => exact Except.noConfusion (show Except.ok acc = Except.error n from hk)
    | cons r rest =>
      rw [show kahnGo edges (fuel+1) acc (r :: rest) =
          (if (kahnReady edges (r :: rest)).isEmpty then Except.error r
           else kahnGo edges fuel (acc ++ kahnReady edges (r :: rest))
             ((r :: rest).filter
               (fun a => ¬ (kahnReady edges (r :: rest)).contains a))) from rfl] at hk
      by_cases hr : (kahnReady edges (r :: rest)).isEmpty
      · have htotal : ∀ a ∈ (r :: rest), ∃ b, b ∈ (r :: rest) ∧ edgeRel edges a b :=
          kahnReady_empty_total edges _ (List.isEmpty_iff.mp hr)
        exact cycle_of_total_succ (edgeRel edges) (r :: rest) (by simp) htotal
      · rw [if_neg hr] at hk
        have hlt : ((r :: rest).filter
            (fun a => ¬ (kahnReady edges (r :: rest)).contains a)).length
            < (r :: rest).length := by
          obtain ⟨x, hx⟩ := List.exists_mem_of_ne_nil (kahnReady edges (r :: rest))
            (fun hnil => hr (by rw [hnil]; rfl))
          have hxR : x ∈ (r :: rest) := List.mem_of_mem_filter hx
          apply length_filter_lt _ _ x hxR
          simp [hx]
        refine ih _ _ n ?_ hk
        have hlen2 := hlen
        simp only [List.length_cons] at hlen2 hlt ⊢
        omega

/-- Toposort soundness over any edge list. -/
theorem toposort_sound (edges : List Edge) (n : Node)
    (h : toposortDependents edges = .error n) : IsCycle edges := by
  unfold toposortDependents at h
  exact kahnGo_error_cycle edges (nodesOf edges).length [] (nodesOf edges) n le_rfl h

/-- One unfolding step of the closure attribute scan. -/
theorem mvLoop_succ (sch : Schema) (model : ModelDef) (fuel i : Nat) (item : Item) :
    mvLoop sch model (fuel+1) i item =
      match item.attributes with
      | none => .error .typeErr
      | some attrs =>
        if h : i < attrs.length then
          match lookupAttr model (attrs.get ⟨i, h⟩) with
          | none => .error .typeErr
          | some ref =>
            if ref.virtual then
              mvLoop sch model fuel i
                (mergeClauses (item.withAttributes (some (attrs.eraseIdx i))) ref)
            else mvLoop sch model fuel (i + 1) item
        else .ok item := rfl

/-- The closure scan only fails by running out of fuel or dereferencing an
undefined value; it never reports a cycle. -/
theorem mvLoop_error_shape (sch : Schema) (model : ModelDef) :
    ∀ (fuel i : Nat) (item : Item) (e : VErr),
      mvLoop sch model fuel i item = .error e → e = .typeErr ∨ e = .noFuel := by
  intro fuel
  induction fuel with
  | zero =>
    intro i item e hk
    have h2 : (Except.error VErr.noFuel : Except VErr Item) = .error e := hk
    cases h2
    exact Or.inr rfl
  | succ fuel ih =>
    intro i item e hk
    rw [mvLoop_succ] at hk
    split at hk
    · cases hk
      exact Or.inl rfl
    · split at hk
      · split at hk
        · cases hk
          exact Or.inl rfl
        · split at hk
          · exact ih _ _ _ hk
          · exact ih _ _ _ hk
      · exact Except.noConfusion hk

/-- One unfolding step of the closure tree merge. -/
theorem mergeVirtual_succ (sch : Schema) (fuel : Nat) (model : ModelDef) (item : Item) :
    mergeVirtual sch (fuel+1) model item =
      (mvLoop sch model (fuel + 1) 0 item).bind
        (fun item1 => match item1.includes with
          | none => Except.ok item1
          | some incs => (mergeVirtualList sch fuel incs).bind
              (fun incs2 => Except.ok (item1.withIncludes (some incs2)))) := by
  conv_lhs => unfold mergeVirtual
  rfl

/-- One unfolding step of the closure include recursion. -/
theorem mergeVirtualList_succ_cons (sch : Schema) (fuel : Nat) (inc : Item)
    (rest : List Item) :
    mergeVirtualList sch (fuel+1) (inc :: rest) =
      match inc.modelRef with
      | some (.byRef n) =>
        (match lookupModel sch n with
         | some md => (mergeVirtual sch fuel md inc).bind
             (fun inc2 => (mergeVirtualList sch fuel rest).bind
               (fun rest2 => Except.ok (inc2 :: rest2)))
         | none => Except.error VErr.typeErr)
      | _ => Except.error VErr.typeErr := by
  conv_lhs => unfold mergeVirtualList
  rfl

/-- The closure tree merge never reports a cycle either. -/
theorem mergeVirtual_error_shape (sch : Schema) :
    ∀ fuel : Nat,
      (∀ (model : ModelDef) (item : Item) (e : VErr),
        mergeVirtual sch fuel model item = .error e → e = .typeErr ∨ e = .noFuel)
      ∧ (∀ (incs : List Item) (e : VErr),
        mergeVirtualList sch fuel incs = .error e → e = .typeErr ∨ e = .noFuel) := by
  intro fuel
  induction fuel with
  | zero =>
    constructor
    · intro model item e hk
      have h2 : (Except.error VErr.noFuel : Except VErr Item) = .error e := hk
      cases h2
      exact Or.inr rfl
    · intro incs e hk
      have h2 : (Except.error VErr.noFuel : Except VErr (List Item)) = .error e := hk
      cases h2
      exact Or.inr rfl
  | succ fuel ih =>
    obtain ⟨ihT, ihL⟩ := ih
    constructor
    · intro model item e hk
      rw [mergeVirtual_succ] at hk
      cases h1 : mvLoop sch model (fuel+1) 0 item with
      | error e1 =>
        rw [h1] at hk
        have h2 : (Except.error e1 : Except VErr Item) = .error e := hk
        cases h2
        exact mvLoop_error_shape sch model _ _ _ _ h1
      | ok item1 =>
        rw [h1] at hk
        have hk2 : (match item1.includes with
          | none => Except.ok item1
          | some incs => (mergeVirtualList sch fuel incs).bind
              (fun incs2 => Except.ok (item1.withIncludes (some incs2)))) = .error e := hk
        cases hInc : item1.includes with
        | none =>
          rw [hInc] at hk2
          exact Except.noConfusion (show Except.ok item1 = Except.error e from hk2)
        | some incs =>
          rw [hInc] at hk2
          have hk3 : (mergeVirtualList sch fuel incs).bind
              (fun incs2 => Except.ok (item1.withIncludes (some incs2))) = .error e := hk2
          cases h2 : mergeVirtualList sch fuel incs with
          | error e2 =>
            rw [h2] at hk3
            have h3 : (Except.error e2 : Except VErr Item) = .error e := hk3
            cases h3
            exact ihL incs _ h2
          | ok incs2 =>
            rw [h2] at hk3
            exact Except.noConfusion
              (show Except.ok (item1.withIncludes (some incs2)) = Except.error e from hk3)
    · intro incs e hk
      cases incs with
      | nil =>
        exact Except.noConfusion (show Except.ok ([] : List Item) = Except.error e from hk)
      | cons inc rest =>
        rw [mergeVirtualList_succ_cons] at hk
        cases hmr : inc.modelRef with
        | none =>
          rw [hmr] at hk
          have h2 : (Except.error VErr.typeErr : Except VErr (List Item)) = .error e := hk
          cases h2
          exact Or.inl rfl
        | some r =>
          rw [hmr] at hk
          cases r with
          | byName s =>
            have h2 : (Except.error VErr.typeErr : Except VErr (List Item)) = .error e := hk
            cases h2
            exact Or.inl rfl
          | byRef n =>
            have hkb : (match lookupModel sch n with
                | some md => (mergeVirtual sch fuel md inc).bind
                    (fun inc2 => (mergeVirtualList sch fuel rest).bind
                      (fun rest2 => Except.ok (inc2 :: rest2)))
                | none => Except.error VErr.typeErr) = .error e := hk
            cases hlm : lookupModel sch n with
            | none =>
              rw [hlm] at hkb
              have h2 : (Except.error VErr.typeErr : Except VErr (List Item))
                  = .error e := hkb
              cases h2
              exact Or.inl rfl
            | some md =>
              rw [hlm] at hkb
              have hk2 : (mergeVirtual sch fuel md inc).bind
                  (fun inc2 => (mergeVirtualList sch fuel rest).bind
                    (fun rest2 => Except.ok (inc2 :: rest2))) = .error e := hkb
              cases h2 : mergeVirtual sch fuel md inc with
              | error e2 =>
                rw [h2] at hk2
                have h3 : (Except.error e2 : Except VErr (List Item)) = .error e := hk2
                cases h3
                exact ihT md inc _ h2
              | ok inc2 =>
                rw [h2] at hk2
                have hk3 : (mergeVirtualList sch fuel rest).bind
                    (fun rest2 => Except.ok (inc2 :: rest2)) = .error e := hk2
                cases h3 : mergeVirtualList sch fuel rest with
                | error e3 =>
                  rw [h3] at hk3
                  have h4 : (Except.error e3 : Except VErr (List Item)) = .error e := hk3
                  cases h4
                  exact ihL rest _ h3
                | ok rest2 =>
                  rw [h3] at hk3
                  exact Except.noConfusion
                    (show Except.ok (inc2 :: rest2) = Except.error e from hk3)

/-- The per-node closure pass only surfaces merge errors; a cycle error
can only come from the toposort that precedes it. -/
theorem closeSteps_error_shape (fuel : Nat) :
    ∀ (order : List Node) (sch : Schema) (e : VErr),
      (closeSteps fuel sch order).2 = some e → e = .typeErr ∨ e = .noFuel := by
  intro order
  induction order with
  | nil =>
    intro sch e h
    exact Option.noConfusion (show (none : Option VErr) = some e from h)
  | cons nd rest ih =>
    intro sch e h
    obtain ⟨mn, fn⟩ := nd
    rw [show closeSteps fuel sch ((mn, fn) :: rest) =
        (match lookupModel sch mn with
         | none => (sch, some VErr.typeErr)
         | some model =>
           match lookupAttr model fn with
           | none => (sch, some VErr.typeErr)
           | some field =>
             match mergeVirtual sch fuel model field with
             | .error e => (sch, some e)
             | .ok f2 => closeSteps fuel (updateField sch mn fn f2) rest) from rfl] at h
    cases hlm : lookupModel sch mn with
    | none =>
      rw [hlm] at h
      have h2 : some VErr.typeErr = some e := h
      cases h2
      exact Or.inl rfl
    | some model =>
      rw [hlm] at h
      have hb : (match lookupAttr model fn with
          | none => (sch, some VErr.typeErr)
          | some field =>
            match mergeVirtual sch fuel model field with
            | .error e => (sch, some e)
            | .ok f2 => closeSteps fuel (updateField sch mn fn f2) rest).2 = some e := h
      cases hla : lookupAttr model fn with
      | none =>
        rw [hla] at hb
        have h2 : some VErr.typeErr = some e := hb
        cases h2
        exact Or.inl rfl
      | some field =>
        rw [hla] at hb
        have hc : (match mergeVirtual sch fuel model field with
            | .error e => (sch, some e)
            | .ok f2 => closeSteps fuel (updateField sch mn fn f2) rest).2 = some e := hb
        cases hmv : mergeVirtual sch fuel model field with
        | error e2 =>
          rw [hmv] at hc
          have h2 : some e2 = some e := hc
          cases h2
          exact (mergeVirtual_error_shape sch fuel).1 model field _ hmv
        | ok f2 =>
          rw [hmv] at hc
          exact ih (updateField sch mn fn f2) e hc

/-- Counterexample to claim C3: in schMixed, A needs B's attributes and B
orders by A, so the union of the attribute-reference and order-reference
graphs is cyclic; but the source toposorts the two graphs separately, each
is acyclic alone, and initialization succeeds with no CircularDependency. -/
theorem c3_counterexample :
    attrEdges (parsePhase schMixed).1 = .ok [(("M", "A"), ("M", "B"))]
    ∧ orderEdges (parsePhase schMixed).1 = .ok [(("M", "B"), ("M", "A"))]
    ∧ IsCycle [(("M", "A"), ("M", "B")), (("M", "B"), ("M", "A"))]
    ∧ ¬ IsCycle [(("M", "A"), ("M", "B"))]
    ∧ ¬ IsCycle [(("M", "B"), ("M", "A"))]
    ∧ (initVirtualFields 50 schMixed).2 = none := by
  refine ⟨rfl, rfl, ?_, ?_, ?_, rfl⟩
  · refine ⟨("M", "A"), ?_⟩
    have h1 : edgeRel [(("M", "A"), ("M", "B")), (("M", "B"), ("M", "A"))]
        ("M", "A") ("M", "B") := by simp [edgeRel]
    have h2 : edgeRel [(("M", "A"), ("M", "B")), (("M", "B"), ("M", "A"))]
        ("M", "B") ("M", "A") := by simp [edgeRel]
    exact (Relation.TransGen.single h1).tail h2
  · exact not_isCycle_single (by simp)
  · exact not_isCycle_single (by simp)

/-- Claim C3 amended: the cycle check is sound per graph, not complete on
the union.  A toposort failure always reflects a real cycle of the single
graph handed to it, and a CircularDependency error from the include-
inheritance phase implies a cycle of the attribute-reference graph alone;
a cycle mixing attribute and order references goes undetected
(c3_counterexample). -/
theorem c3_amended :
    (∀ (edges : List Edge) (n : Node),
      toposortDependents edges = .error n → IsCycle edges)
    ∧ (∀ (fuel : Nat) (sch : Schema) (edges : List Edge) (mn fn : String),
      attrEdges sch = .ok edges →
      (inheritIncludePhase fuel sch).2 = some (.circular mn fn) →
      IsCycle edges) := by
  constructor
  · exact fun edges n h => toposort_sound edges n h
  · intro fuel sch edges mn fn hedges h
    unfold inheritIncludePhase at h
    rw [hedges] at h
    have h2 : (match toposortDependents edges with
        | .error n => (sch, some (VErr.circular n.1 n.2))
        | .ok order => closeSteps fuel sch order).2 = some (.circular mn fn) := h
    cases ht : toposortDependents edges with
    | error n => exact toposort_sound edges n ht
    | ok order =>
      rw [ht] at h2
      have h3 : (closeSteps fuel sch order).2 = some (.circular mn fn) := h2
      rcases closeSteps_error_shape fuel order sch _ h3 with h4 | h4 <;>
        exact absurd h4 (by simp)

/-- A self-referencing Derived field: F requires attribute F. -/
def schSelf : Schema :=
  [⟨"M", [("a", baseField), ("F", virtualField (some ["F"]) none none)], []⟩]

theorem c3_amended_witness :
    toposortDependents [((("M", "F") : Node), (("M", "F") : Node))] = .error ("M", "F")
    ∧ attrEdges schSelf = .ok [(("M", "F"), ("M", "F"))]
    ∧ (inheritIncludePhase 10 schSelf).2 = some (.circular "M" "F")
    ∧ IsCycle [((("M", "F") : Node), (("M", "F") : Node))] := by
  refine ⟨rfl, rfl, rfl, ?_⟩
  exact c3_amended.1 [(("M", "F"), ("M", "F"))] ("M", "F") rfl
